import Mathlib

/-!
# Verification of the doubly-linked-list LRU cache (`src/lru.ts`)

This file gives a shallow embedding of the TypeScript `LRUCache` class and
proves/refutes the specification claims about it.

Modelling choices (all dictated by the source):
* JavaScript heap objects of type `Entry` are modelled by an arena
  `store : List (Entry V)`; an object *reference* is the index of the entry
  in the arena.  A fresh `{key, value}` object allocated by `put` gets the
  next free index `store.length`.  `undefined` links are `none`.
* The `keymap` JS object is modelled by an association list in insertion
  order (`kmUpdate` replaces in place, as JS property assignment does, and
  `kmDelete` models the `delete` operator).
* JS `number` fields `limit` and `size` are modelled by `Int` (the source
  never guards against negative values, and `size--` can in principle pass
  through zero).
* Field mutations (`x.newer = …`) become pointwise arena updates, performed
  in exactly the order the source performs them.
-/

namespace LRU

/-- The `Entry` interface of the source: recency links plus the binding. -/
structure Entry (V : Type) where
  newer : Option Nat
  older : Option Nat
  key : String
  value : V
deriving DecidableEq, Repr

/-- The mutable state of class `LRUCache`, plus the arena `store` that plays
the role of the JS heap (entry references are indices into it). -/
structure LRUCache (V : Type) where
  limit : Int
  size : Int
  keymap : List (String × Nat)
  head : Option Nat
  tail : Option Nat
  store : List (Entry V)
deriving DecidableEq, Repr

/-- `keymap[key]` — JS property lookup, `none` for `undefined`. -/
def kmLookup (m : List (String × Nat)) (k : String) : Option Nat :=
  match m with
  | [] => none
  | p :: m => if p.1 = k then some p.2 else kmLookup m k

/-- `keymap[key] = i` — JS property assignment: replaces the binding in
place if `key` is present (property order is kept, as for JS objects),
else appends the new property at the end. -/
def kmUpdate (m : List (String × Nat)) (k : String) (i : Nat) : List (String × Nat) :=
  match m with
  | [] => [(k, i)]
  | p :: m => if p.1 = k then (k, i) :: m else p :: kmUpdate m k i

/-- `delete keymap[key]`. -/
def kmDelete (m : List (String × Nat)) (k : String) : List (String × Nat) :=
  match m with
  | [] => []
  | p :: m => if p.1 = k then kmDelete m k else p :: kmDelete m k

variable {V : Type}

/-- Mutate the heap object at index `i` (no-op on a dangling index, which
never arises from the modelled code: JS references cannot dangle). -/
def modifyE (st : List (Entry V)) (i : Nat) (f : Entry V → Entry V) : List (Entry V) :=
  match st[i]? with
  | none => st
  | some e => st.set i (f e)

/-- `constructor(limit)` — lines 41–45: no validation of `limit` at all. -/
def construct (limit : Int) : LRUCache V :=
  { limit := limit, size := 0, keymap := [], head := none, tail := none, store := [] }

/-- `shift()` — lines 89–106.  Removes the head entry (if any) from the
chain and the keymap and returns it with its links cleared.  Note that the
source neither touches `tail` nor decrements `size`. -/
def shift (c : LRUCache V) : LRUCache V × Option (Entry V) :=
  match c.head with
  | none => (c, none)
  | some h =>
    match c.store[h]? with
    | none => (c, none)  -- unreachable: `head` always references a real heap object
    | some e =>
      -- if (this.head && this.head.newer) { this.head = this.head.newer;
      --   this.head.older = undefined; } else { this.head = undefined; }
      let c1 :=
        match e.newer with
        | some n => { c with head := some n,
                             store := modifyE c.store n (fun x => { x with older := none }) }
        | none => { c with head := none }
      -- entry.newer = entry.older = undefined;
      let c2 := { c1 with store := modifyE c1.store h (fun x => { x with newer := none, older := none }) }
      -- delete this.keymap[entry.key];
      let c3 := { c2 with keymap := kmDelete c2.keymap e.key }
      (c3, c3.store[h]?)

/-- The insertion part of `put` — lines 53–65: allocate the entry, store it
in the keymap, link it after the old tail (or make it the head), make it
the tail. -/
def putLink (c : LRUCache V) (key : String) (value : V) : LRUCache V :=
  let eid := c.store.length
  let entry : Entry V := { newer := none, older := none, key := key, value := value }
  let c1 := { c with store := c.store ++ [entry], keymap := kmUpdate c.keymap key eid }
  let c2 :=
    match c1.tail with
    | some t =>
      -- this.tail.newer = entry; entry.older = this.tail;
      { c1 with store := (modifyE (modifyE c1.store t (fun x => { x with newer := some eid })) eid
          (fun x => { x with older := some t })) }
    | none => { c1 with head := some eid }
  { c2 with tail := some eid }

/-- `put(key, value)` — lines 52–73: insert, then either evict via `shift`
(when `size === limit`) or increment `size`. -/
def put (c : LRUCache V) (key : String) (value : V) : LRUCache V × Option (Entry V) :=
  let c3 := putLink c key value
  if c3.size = c3.limit then shift c3
  else ({ c3 with size := c3.size + 1 }, none)

/-- `get(key, returnEntry)` — lines 112–138, returning the entry reference
(the `returnEntry = true` view; the `false` view just projects `value`,
see `getValue`).  Absent key: no mutation.  Entry already the tail: no
mutation (fast path).  Otherwise the entry is unlinked and relinked at the
tail, in the source's mutation order. -/
def getRef (c : LRUCache V) (key : String) : LRUCache V × Option Nat :=
  match kmLookup c.keymap key with
  | none => (c, none)
  | some eid =>
    if c.tail = some eid then (c, some eid)
    else
      match c.store[eid]? with
      | none => (c, some eid)  -- unreachable: keymap values always reference real heap objects
      | some e =>
        -- if (entry.newer) { if (entry === this.head) this.head = entry.newer;
        --   entry.newer.older = entry.older; }
        let c1 :=
          match e.newer with
          | some n =>
            let ch := if c.head = some eid then { c with head := some n } else c
            { ch with store := modifyE ch.store n (fun x => { x with older := e.older }) }
          | none => c
        -- if (entry.older) entry.older.newer = entry.newer;
        let c2 :=
          match e.older with
          | some o => { c1 with store := modifyE c1.store o (fun x => { x with newer := e.newer }) }
          | none => c1
        -- entry.newer = undefined; entry.older = this.tail;
        let c3 := { c2 with store := modifyE c2.store eid (fun x => { x with newer := none, older := c.tail }) }
        -- if (this.tail) this.tail.newer = entry;
        let c4 :=
          match c.tail with
          | some t => { c3 with store := modifyE c3.store t (fun x => { x with newer := some eid }) }
          | none => c3
        -- this.tail = entry;
        ({ c4 with tail := some eid }, some eid)

/-- `get` with `returnEntry = true`: the returned heap object itself. -/
def get (c : LRUCache V) (key : String) : LRUCache V × Option (Entry V) :=
  let r := getRef c key
  (r.1, r.2.bind (fun i => r.1.store[i]?))

/-- `get` with `returnEntry = false`: just the value. -/
def getValue (c : LRUCache V) (key : String) : LRUCache V × Option V :=
  let r := get c key
  (r.1, r.2.map (·.value))

/-- `find(key)` — lines 149–151: pure keymap lookup, no mutation. -/
def find (c : LRUCache V) (key : String) : Option (Entry V) :=
  (kmLookup c.keymap key).bind (fun i => c.store[i]?)

/-- `set(key, value)` — lines 157–168: touch-and-overwrite if present,
otherwise `put`; an evicted entry (always truthy in JS) yields its value. -/
def set (c : LRUCache V) (key : String) (value : V) : LRUCache V × Option V :=
  let r := getRef c key
  match r.2 with
  | some eid =>
    match r.1.store[eid]? with
    | none => (r.1, none)  -- unreachable: `getRef` only returns live references
    | some e =>
      ({ r.1 with store := modifyE r.1.store eid (fun x => { x with value := value }) }, some e.value)
  | none =>
    let p := put r.1 key value
    (p.1, p.2.map (·.value))

/-- `remove(key)` — lines 174–198: unlink, delete from keymap, `size--`. -/
def remove (c : LRUCache V) (key : String) : LRUCache V × Option V :=
  match kmLookup c.keymap key with
  | none => (c, none)
  | some eid =>
    match c.store[eid]? with
    | none => (c, none)  -- unreachable: keymap values always reference real heap objects
    | some e =>
      -- delete this.keymap[entry.key];
      let c1 := { c with keymap := kmDelete c.keymap e.key }
      let c2 :=
        match e.newer, e.older with
        | some n, some o =>
          -- entry.older.newer = entry.newer; entry.newer.older = entry.older;
          { c1 with store := (modifyE (modifyE c1.store o (fun x => { x with newer := some n })) n
              (fun x => { x with older := some o })) }
        | some n, none =>
          -- entry.newer.older = undefined; this.head = entry.newer;
          { c1 with store := modifyE c1.store n (fun x => { x with older := none }), head := some n }
        | none, some o =>
          -- entry.older.newer = undefined; this.tail = entry.older;
          { c1 with store := modifyE c1.store o (fun x => { x with newer := none }), tail := some o }
        | none, none => { c1 with head := none, tail := none }
      ({ c2 with size := c2.size - 1 }, some e.value)

/-- `removeAll()` — lines 201–205.  The arena is kept: the abandoned JS
objects simply become garbage, unobservable through the API. -/
def removeAll (c : LRUCache V) : LRUCache V :=
  { c with head := none, tail := none, size := 0, keymap := [] }

/-- `keys()` — lines 211–213: the keymap keys in property order. -/
def keys (c : LRUCache V) : List String :=
  c.keymap.map (·.1)

/-- The `while (entry) { …; entry = entry.newer }` traversal of `forEach`
and `toString`, with fuel (the JS loop can diverge only on heap states the
modelled code never produces; `store.length + 1` fuel suffices for every
well-formed cache). -/
def traverseNewer (st : List (Entry V)) : Nat → Option Nat → List (String × V)
  | 0, _ => []
  | _, none => []
  | fuel + 1, some i =>
    match st[i]? with
    | none => []
    | some e => (e.key, e.value) :: traverseNewer st fuel e.newer

/-- The `entry = entry.older` traversal (the `desc` direction of `forEach`). -/
def traverseOlder (st : List (Entry V)) : Nat → Option Nat → List (String × V)
  | 0, _ => []
  | _, none => []
  | fuel + 1, some i =>
    match st[i]? with
    | none => []
    | some e => (e.key, e.value) :: traverseOlder st fuel e.older

/-- `forEach(fun, context, desc)` — lines 223–240, as the list of
`(key, value)` pairs passed to `fun`, in visiting order. -/
def forEachList (c : LRUCache V) (desc : Bool) : List (String × V) :=
  if desc then traverseOlder c.store (c.store.length + 1) c.tail
  else traverseNewer c.store (c.store.length + 1) c.head

/-- `toString()` — lines 243–252 (the spec's `describe`): `key:value`
pairs head-to-tail, separated by `<`. -/
def describe [ToString V] (c : LRUCache V) : String :=
  String.intercalate " < "
    ((traverseNewer c.store (c.store.length + 1) c.head).map (fun p => p.1 ++ ":" ++ toString p.2))

/-! ## Basic lemmas about the keymap -/

theorem kmLookup_update_self (m : List (String × Nat)) (k : String) (i : Nat) :
    kmLookup (kmUpdate m k i) k = some i := by
  induction m with
  | nil => simp [kmUpdate, kmLookup]
  | cons p m ih =>
    by_cases hp : p.1 = k
    · simp [kmUpdate, kmLookup, hp]
    · simp [kmUpdate, kmLookup, hp, ih]

theorem kmLookup_update_ne (m : List (String × Nat)) (k k2 : String) (i : Nat) (h : k2 ≠ k) :
    kmLookup (kmUpdate m k i) k2 = kmLookup m k2 := by
  induction m with
  | nil => simp [kmUpdate, kmLookup, Ne.symm h]
  | cons p m ih =>
    by_cases hp : p.1 = k
    · simp [kmUpdate, kmLookup, hp, Ne.symm h]
    · by_cases hp2 : p.1 = k2 <;> simp [kmUpdate, kmLookup, hp, hp2, ih, h, Ne.symm h]

theorem kmLookup_delete_self (m : List (String × Nat)) (k : String) :
    kmLookup (kmDelete m k) k = none := by
  induction m with
  | nil => simp [kmDelete, kmLookup]
  | cons p m ih =>
    by_cases hp : p.1 = k
    · simp [kmDelete, hp, ih]
    · simp [kmDelete, kmLookup, hp, ih]

theorem kmLookup_delete_ne (m : List (String × Nat)) (k k2 : String) (h : k2 ≠ k) :
    kmLookup (kmDelete m k) k2 = kmLookup m k2 := by
  induction m with
  | nil => simp [kmDelete]
  | cons p m ih =>
    by_cases hp : p.1 = k
    · have hp2 : ¬p.1 = k2 := by rw [hp]; exact Ne.symm h
      simp [kmDelete, kmLookup, hp, hp2, ih, h, Ne.symm h]
    · by_cases hp2 : p.1 = k2 <;> simp [kmDelete, kmLookup, hp, hp2, ih, h, Ne.symm h]

theorem mem_kmDelete (m : List (String × Nat)) (k : String) (p : String × Nat)
    (h : p ∈ kmDelete m k) : p ∈ m ∧ p.1 ≠ k := by
  induction m with
  | nil => simp [kmDelete] at h
  | cons q m ih =>
    by_cases hq : q.1 = k
    · rw [kmDelete, if_pos hq] at h
      exact ⟨List.mem_cons_of_mem _ (ih h).1, (ih h).2⟩
    · rw [kmDelete, if_neg hq] at h
      rcases List.mem_cons.mp h with rfl | h
      · exact ⟨List.mem_cons_self _ _, hq⟩
      · exact ⟨List.mem_cons_of_mem _ (ih h).1, (ih h).2⟩

theorem mem_kmUpdate (m : List (String × Nat)) (k : String) (i : Nat) (p : String × Nat)
    (h : p ∈ kmUpdate m k i) : p = (k, i) ∨ p ∈ m := by
  induction m with
  | nil => simp [kmUpdate] at h; exact Or.inl h
  | cons q m ih =>
    by_cases hq : q.1 = k
    · rw [kmUpdate, if_pos hq] at h
      rcases List.mem_cons.mp h with rfl | h
      · exact Or.inl rfl
      · exact Or.inr (List.mem_cons_of_mem _ h)
    · rw [kmUpdate, if_neg hq] at h
      rcases List.mem_cons.mp h with rfl | h
      · exact Or.inr (List.mem_cons_self _ _)
      · rcases ih h with h1 | h1
        · exact Or.inl h1
        · exact Or.inr (List.mem_cons_of_mem _ h1)

theorem kmUpdate_keys_mem (m : List (String × Nat)) (k : String) (i : Nat) (a : String)
    (h : a ∈ (kmUpdate m k i).map (·.1)) : a = k ∨ a ∈ m.map (·.1) := by
  rcases List.mem_map.mp h with ⟨p, hp, rfl⟩
  rcases mem_kmUpdate m k i p hp with rfl | hp2
  · exact Or.inl rfl
  · exact Or.inr (List.mem_map_of_mem _ hp2)

theorem kmUpdate_keys_nodup (m : List (String × Nat)) (k : String) (i : Nat)
    (h : (m.map (·.1)).Nodup) : ((kmUpdate m k i).map (·.1)).Nodup := by
  induction m with
  | nil => simp [kmUpdate]
  | cons q m ih =>
    simp only [List.map_cons, List.nodup_cons] at h
    by_cases hq : q.1 = k
    · rw [kmUpdate, if_pos hq]
      simp only [List.map_cons, List.nodup_cons]
      exact ⟨by rw [← hq]; exact h.1, h.2⟩
    · rw [kmUpdate, if_neg hq]
      simp only [List.map_cons, List.nodup_cons]
      refine ⟨fun hmem => ?_, ih h.2⟩
      rcases kmUpdate_keys_mem m k i q.1 hmem with h1 | h1
      · exact hq h1
      · exact h.1 h1

theorem kmDelete_keys_sub (m : List (String × Nat)) (k : String) :
    ∀ p ∈ kmDelete m k, p ∈ m :=
  fun p hp => (mem_kmDelete m k p hp).1

theorem kmDelete_keys_nodup (m : List (String × Nat)) (k : String)
    (h : (m.map (·.1)).Nodup) : ((kmDelete m k).map (·.1)).Nodup := by
  induction m with
  | nil => simp [kmDelete]
  | cons q m ih =>
    simp only [List.map_cons, List.nodup_cons] at h
    by_cases hq : q.1 = k
    · rw [kmDelete, if_pos hq]
      exact ih h.2
    · rw [kmDelete, if_neg hq]
      simp only [List.map_cons, List.nodup_cons]
      refine ⟨fun hmem => ?_, ih h.2⟩
      rcases List.mem_map.mp hmem with ⟨p, hp, hpe⟩
      exact h.1 (hpe ▸ List.mem_map_of_mem _ (mem_kmDelete m k p hp).1)

/-! ## Basic lemmas about arena access and update -/

theorem getElem?_set (l : List α) (i j : Nat) (a : α) :
    (l.set i a)[j]? = if i = j ∧ i < l.length then some a else l[j]? := by
  induction l generalizing i j with
  | nil => simp
  | cons b l ih =>
    cases i with
    | zero =>
      cases j with
      | zero => simp
      | succ j => simp
    | succ i =>
      cases j with
      | zero => simp
      | succ j =>
        simp only [List.set_cons_succ, List.getElem?_cons_succ, ih, List.length_cons]
        by_cases hij : i = j
        · subst hij
          by_cases hl : i < l.length <;> simp [hl, Nat.succ_lt_succ_iff]
        · simp [hij, fun h => hij (Nat.succ_injective h)]

theorem modifyE_getElem?_self (st : List (Entry V)) (i : Nat) (f : Entry V → Entry V) :
    (modifyE st i f)[i]? = (st[i]?).map f := by
  unfold modifyE
  cases h : st[i]? with
  | none => simp [h]
  | some e =>
    have hi : i < st.length := by
      by_contra hge
      rw [List.getElem?_eq_none (Nat.le_of_not_lt hge)] at h
      exact Option.noConfusion h
    simp [getElem?_set, hi, h]

theorem modifyE_getElem?_ne (st : List (Entry V)) (i j : Nat) (f : Entry V → Entry V)
    (h : i ≠ j) : (modifyE st i f)[j]? = st[j]? := by
  unfold modifyE
  cases he : st[i]? with
  | none => rfl
  | some e => simp [getElem?_set, h]

theorem modifyE_getElem? (st : List (Entry V)) (i j : Nat) (f : Entry V → Entry V) :
    (modifyE st i f)[j]? = if i = j then (st[j]?).map f else st[j]? := by
  by_cases h : i = j
  · subst h; simp [modifyE_getElem?_self]
  · simp [h, modifyE_getElem?_ne st i j f h]

theorem modifyE_length (st : List (Entry V)) (i : Nat) (f : Entry V → Entry V) :
    (modifyE st i f).length = st.length := by
  unfold modifyE
  cases st[i]? <;> simp

theorem getElem?_append_left2 (l1 l2 : List α) (i : Nat) (h : i < l1.length) :
    (l1 ++ l2)[i]? = l1[i]? := by
  rw [List.getElem?_append, if_pos h]

theorem getElem?_append_len (l1 : List α) (a : α) :
    (l1 ++ [a])[l1.length]? = some a := by
  induction l1 with
  | nil => simp
  | cons b l ih => simp [ih]

theorem modifyE_key_map (st : List (Entry V)) (i : Nat) (f : Entry V → Entry V)
    (hf : ∀ x, (f x).key = x.key) (j : Nat) :
    ((modifyE st i f)[j]?).map Entry.key = (st[j]?).map Entry.key := by
  rw [modifyE_getElem?]
  split
  · cases st[j]? <;> simp [hf]
  · rfl

theorem modifyE_value_map (st : List (Entry V)) (i : Nat) (f : Entry V → Entry V)
    (hf : ∀ x, (f x).value = x.value) (j : Nat) :
    ((modifyE st i f)[j]?).map Entry.value = (st[j]?).map Entry.value := by
  rw [modifyE_getElem?]
  split
  · cases st[j]? <;> simp [hf]
  · rfl

/-! ## The chain predicate: the doubly-linked recency list -/

/-- The link that the last entry before `rest` must have as its `newer`
pointer: the first element of `rest`, or `nxt` if `rest` is exhausted. -/
def nextLink (rest : List Nat) (nxt : Option Nat) : Option Nat :=
  match rest with
  | [] => nxt
  | j :: _ => some j

/-- The last element of `A` as an option, or `p` if `A` is empty. -/
def lastOr (A : List Nat) (p : Option Nat) : Option Nat :=
  match A.getLast? with
  | some a => some a
  | none => p

/-- `seg st p L n = true` iff the arena indices `L` form a doubly linked
segment in `st`: the first entry's `older` is `p`, consecutive entries
point at each other, and the last entry's `newer` is `n`. -/
def seg (st : List (Entry V)) : Option Nat → List Nat → Option Nat → Bool
  | _, [], _ => true
  | p, i :: rest, nxt =>
    match st[i]? with
    | none => false
    | some e => e.older == p && e.newer == nextLink rest nxt && seg st (some i) rest nxt

theorem seg_nil (st : List (Entry V)) (p n : Option Nat) : seg st p [] n = true := rfl

theorem seg_cons (st : List (Entry V)) (p : Option Nat) (i : Nat) (rest : List Nat)
    (n : Option Nat) :
    seg st p (i :: rest) n =
      (match st[i]? with
       | none => false
       | some e => e.older == p && e.newer == nextLink rest n && seg st (some i) rest n) := by
  rfl

theorem seg_cons_iff (st : List (Entry V)) (p : Option Nat) (i : Nat) (rest : List Nat)
    (n : Option Nat) :
    seg st p (i :: rest) n = true ↔
      ∃ e, st[i]? = some e ∧ e.older = p ∧ e.newer = nextLink rest n ∧
        seg st (some i) rest n = true := by
  rw [seg_cons]
  cases h : st[i]? with
  | none => simp
  | some e => simp [h, and_assoc]

theorem lastOr_cons (a : Nat) (A : List Nat) (p : Option Nat) :
    lastOr (a :: A) p = lastOr A (some a) := by
  unfold lastOr
  cases A with
  | nil => simp
  | cons b B =>
    rw [List.getLast?_cons_cons]
    cases h : (b :: B).getLast? with
    | none => exact absurd (List.getLast?_eq_none_iff.mp h) (by simp)
    | some x => rfl

theorem nextLink_append (A B : List Nat) (n : Option Nat) :
    nextLink (A ++ B) n = nextLink A (nextLink B n) := by
  cases A <;> simp [nextLink]

theorem seg_congr (st st2 : List (Entry V)) (p n : Option Nat) (L : List Nat)
    (h : ∀ i ∈ L, st2[i]? = st[i]?) : seg st2 p L n = seg st p L n := by
  induction L generalizing p with
  | nil => rfl
  | cons i rest ih =>
    unfold seg
    rw [h i (List.mem_cons_self _ _)]
    cases st[i]? with
    | none => rfl
    | some e =>
      rw [ih _ (fun j hj => h j (List.mem_cons_of_mem _ hj))]

theorem seg_append (st : List (Entry V)) (p n : Option Nat) (A B : List Nat) :
    seg st p (A ++ B) n = (seg st p A (nextLink B n) && seg st (lastOr A p) B n) := by
  induction A generalizing p with
  | nil => simp [seg_nil, lastOr]
  | cons a A ih =>
    rw [List.cons_append, seg_cons, seg_cons, lastOr_cons]
    cases h : st[a]? with
    | none => simp
    | some e =>
      rw [ih (some a), nextLink_append, Bool.and_assoc]

theorem seg_getElem?_of_mem (st : List (Entry V)) (p n : Option Nat) (L : List Nat)
    (hseg : seg st p L n = true) (i : Nat) (hi : i ∈ L) :
    ∃ e, st[i]? = some e := by
  induction L generalizing p with
  | nil => simp at hi
  | cons a rest ih =>
    rcases (seg_cons_iff st p a rest n).mp hseg with ⟨e, he, _, _, hrest⟩
    rcases List.mem_cons.mp hi with rfl | hi
    · exact ⟨e, he⟩
    · exact ih _ hrest hi

theorem seg_lt_length_of_mem (st : List (Entry V)) (p n : Option Nat) (L : List Nat)
    (hseg : seg st p L n = true) (i : Nat) (hi : i ∈ L) : i < st.length := by
  rcases seg_getElem?_of_mem st p n L hseg i hi with ⟨e, he⟩
  by_contra hge
  rw [List.getElem?_eq_none (Nat.le_of_not_lt hge)] at he
  exact Option.noConfusion he

theorem kmLookup_mem (m : List (String × Nat)) (k : String) (i : Nat)
    (h : kmLookup m k = some i) : (k, i) ∈ m := by
  induction m with
  | nil => simp [kmLookup] at h
  | cons p m ih =>
    rw [kmLookup] at h
    by_cases hp : p.1 = k
    · rw [if_pos hp] at h
      injection h with h2
      have hpe : p = (k, i) := Prod.ext hp h2
      rw [← hpe]
      exact List.mem_cons_self _ _
    · rw [if_neg hp] at h
      exact List.mem_cons_of_mem _ (ih h)

/-- Changing only the `older` pointer of the first chain entry re-roots
the segment at a new predecessor. -/
theorem seg_older_first (st : List (Entry V)) (p p2 n : Option Nat) (b : Nat) (B2 : List Nat)
    (hb : b ∉ B2) (hseg : seg st p (b :: B2) n = true) :
    seg (modifyE st b (fun x => { x with older := p2 })) p2 (b :: B2) n = true := by
  rcases (seg_cons_iff _ _ _ _ _).mp hseg with ⟨e, he, _, hn2, hrest⟩
  apply (seg_cons_iff _ _ _ _ _).mpr
  refine ⟨{ e with older := p2 }, ?_, rfl, hn2, ?_⟩
  · rw [modifyE_getElem?_self, he]
    rfl
  · refine Eq.trans (seg_congr st _ (some b) n B2 ?_) hrest
    intro j hj
    exact modifyE_getElem?_ne _ _ _ _ (fun hcon => hb (hcon ▸ hj))

/-- Changing only the `newer` pointer of the last chain entry re-targets
the segment at a new successor. -/
theorem seg_retarget (st st4 : List (Entry V)) (p nOld nNew : Option Nat) (C : List Nat)
    (tl : Nat) (hCl : C.getLast? = some tl) (hnd : C.Nodup)
    (hseg : seg st p C nOld = true)
    (hagree : ∀ j ∈ C, j ≠ tl → st4[j]? = st[j]?)
    (hlast : ∀ e, st[tl]? = some e → st4[tl]? = some { e with newer := nNew }) :
    seg st4 p C nNew = true := by
  have hdl := List.dropLast_append_getLast? tl hCl
  rw [← hdl] at hseg hnd ⊢
  rw [seg_append, Bool.and_eq_true] at hseg ⊢
  rcases hseg with ⟨hsegD, hsegT⟩
  have htlD : tl ∉ C.dropLast := by
    rcases List.nodup_append.mp hnd with ⟨-, -, hdisj⟩
    intro hcon
    exact hdisj hcon (List.mem_singleton.mpr rfl)
  constructor
  · refine Eq.trans (seg_congr st _ p (nextLink [tl] nNew) C.dropLast ?_) ?_
    · intro j hj
      refine hagree j ?_ (fun hcon => htlD (hcon ▸ hj))
      rw [← hdl]
      exact List.mem_append.mpr (Or.inl hj)
    · simpa [nextLink] using hsegD
  · rcases (seg_cons_iff _ _ _ _ _).mp hsegT with ⟨e, he, ho, -, -⟩
    apply (seg_cons_iff _ _ _ _ _).mpr
    exact ⟨{ e with newer := nNew }, hlast e he, ho, rfl, seg_nil _ _ _⟩

theorem modKey_older (st : List (Entry V)) (i : Nat) (a : Option Nat) (j : Nat) :
    ((modifyE st i (fun x => { x with older := a }))[j]?).map Entry.key =
      (st[j]?).map Entry.key :=
  modifyE_key_map st i (fun x => { x with older := a }) (fun _ => rfl) j

theorem modKey_newer (st : List (Entry V)) (i : Nat) (a : Option Nat) (j : Nat) :
    ((modifyE st i (fun x => { x with newer := a }))[j]?).map Entry.key =
      (st[j]?).map Entry.key :=
  modifyE_key_map st i (fun x => { x with newer := a }) (fun _ => rfl) j

theorem modKey_both (st : List (Entry V)) (i : Nat) (a b : Option Nat) (j : Nat) :
    ((modifyE st i (fun x => { x with newer := a, older := b }))[j]?).map Entry.key =
      (st[j]?).map Entry.key :=
  modifyE_key_map st i (fun x => { x with newer := a, older := b }) (fun _ => rfl) j

theorem modValue_older (st : List (Entry V)) (i : Nat) (a : Option Nat) (j : Nat) :
    ((modifyE st i (fun x => { x with older := a }))[j]?).map Entry.value =
      (st[j]?).map Entry.value :=
  modifyE_value_map st i (fun x => { x with older := a }) (fun _ => rfl) j

theorem modValue_newer (st : List (Entry V)) (i : Nat) (a : Option Nat) (j : Nat) :
    ((modifyE st i (fun x => { x with newer := a }))[j]?).map Entry.value =
      (st[j]?).map Entry.value :=
  modifyE_value_map st i (fun x => { x with newer := a }) (fun _ => rfl) j

theorem modValue_both (st : List (Entry V)) (i : Nat) (a b : Option Nat) (j : Nat) :
    ((modifyE st i (fun x => { x with newer := a, older := b }))[j]?).map Entry.value =
      (st[j]?).map Entry.value :=
  modifyE_value_map st i (fun x => { x with newer := a, older := b }) (fun _ => rfl) j

/-! ## Well-formedness: the spec's structural invariant (§3, invariant 2) -/

/-- The cache's structural invariant relative to the head-to-tail chain
`L` of arena indices: `head`/`tail` frame the chain, the links are a
doubly linked list, the chain has no duplicates, and the keymap is
coherent (every binding references a chain entry carrying that key, keys
are unique). -/
def ChainWF (c : LRUCache V) (L : List Nat) : Prop :=
  c.head = L.head? ∧ c.tail = L.getLast? ∧ seg c.store none L none = true ∧
  L.Nodup ∧
  (∀ p ∈ c.keymap, p.2 ∈ L) ∧
  (∀ p ∈ c.keymap, (c.store[p.2]?).map Entry.key = some p.1) ∧
  (c.keymap.map (·.1)).Nodup

/-- Full invariant: chain shape plus `size` = chain length (the spec's
"chain from `head` to `tail` whose length equals `size`"). -/
def WF (c : LRUCache V) (L : List Nat) : Prop :=
  ChainWF c L ∧ c.size = (L.length : Int)

instance (c : LRUCache V) (L : List Nat) : Decidable (ChainWF c L) := by
  unfold ChainWF
  exact inferInstance

instance (c : LRUCache V) (L : List Nat) : Decidable (WF c L) := by
  unfold WF
  exact inferInstance

/-! ## Characterization of `shift` -/

/-- `shift` on an empty cache: absent result, no failure, no mutation. -/
theorem shift_empty (c : LRUCache V) (hh : c.head = none) : shift c = (c, none) := by
  unfold shift
  rw [hh]

/-- `shift` on a cache whose head references entry `e`, with no
well-formedness assumed: the head moves to `e.newer`, the returned entry
is the head entry with both links cleared, its key leaves the keymap, and
`size`, `tail` and `limit` are untouched. -/
theorem shift_spec (c : LRUCache V) (h : Nat) (e : Entry V)
    (hh : c.head = some h) (he : c.store[h]? = some e) :
    (shift c).1.head = e.newer ∧
    (shift c).1.tail = c.tail ∧
    (shift c).1.size = c.size ∧
    (shift c).1.limit = c.limit ∧
    (shift c).1.keymap = kmDelete c.keymap e.key ∧
    (shift c).2 = some { e with newer := none, older := none } := by
  unfold shift
  rw [hh]
  simp only [he]
  cases hn : e.newer with
  | none =>
    refine ⟨rfl, rfl, rfl, rfl, rfl, ?_⟩
    simp [modifyE_getElem?_self, he]
  | some n =>
    refine ⟨rfl, rfl, rfl, rfl, rfl, ?_⟩
    simp only [modifyE_getElem?_self]
    by_cases hnh : n = h
    · subst hnh
      simp [modifyE_getElem?_self, he]
    · rw [modifyE_getElem?_ne _ _ _ _ hnh, he]
      simp

/-- `shift` on a well-formed cache whose chain has at least two entries:
the chain loses its first element, everything else is preserved, and the
first entry is returned with cleared links. -/
theorem shift_chain (c : LRUCache V) (x r0 : Nat) (rest2 : List Nat)
    (hcw : ChainWF c (x :: r0 :: rest2)) :
    ChainWF (shift c).1 (r0 :: rest2) ∧ (shift c).1.size = c.size ∧
    (shift c).1.limit = c.limit ∧ (shift c).1.tail = c.tail ∧
    (shift c).1.store.length = c.store.length ∧
    ∃ e, c.store[x]? = some e ∧ (shift c).2 = some { e with newer := none, older := none } := by
  obtain ⟨hh, ht, hseg, hnd, hkmm, hkmk, hkmn⟩ := hcw
  rw [List.head?_cons] at hh
  rcases (seg_cons_iff _ _ _ _ _).mp hseg with ⟨e, he, ho, hn, hseg1⟩
  rcases (seg_cons_iff _ _ _ _ _).mp hseg1 with ⟨e0, he0, ho0, hn0, hseg2⟩
  have hxr0 : x ≠ r0 := by
    intro hcon
    exact (List.nodup_cons.mp hnd).1 (hcon ▸ List.mem_cons_self _ _)
  have hxmem : x ∉ r0 :: rest2 := (List.nodup_cons.mp hnd).1
  have hndr : (r0 :: rest2).Nodup := (List.nodup_cons.mp hnd).2
  have hn2 : e.newer = some r0 := hn
  unfold shift
  rw [hh]
  simp only [he, hn2]
  constructor
  · refine ⟨rfl, ?_, ?_, hndr, ?_, ?_, kmDelete_keys_nodup _ _ hkmn⟩
    · rw [ht, List.getLast?_cons_cons]
    · -- the new chain: r0 with its older link cleared, then the untouched tail
      apply (seg_cons_iff _ _ _ _ _).mpr
      refine ⟨{ e0 with older := none }, ?_, rfl, hn0, ?_⟩
      · rw [modifyE_getElem?_ne _ _ _ _ hxr0, modifyE_getElem?_self, he0]
        rfl
      · refine Eq.trans (seg_congr c.store _ (some r0) none rest2 ?_) hseg2
        intro j hj
        have hjx : j ≠ x := fun hcon => hxmem (hcon ▸ List.mem_cons_of_mem _ hj)
        have hjr : j ≠ r0 := fun hcon =>
          (List.nodup_cons.mp hndr).1 (hcon ▸ hj)
        rw [modifyE_getElem?_ne _ _ _ _ (Ne.symm hjx), modifyE_getElem?_ne _ _ _ _ (Ne.symm hjr)]
    · -- keymap bindings survive the delete and stay inside the chain
      intro p hp
      rcases mem_kmDelete _ _ _ hp with ⟨hpm, hpk⟩
      have h2 := hkmm p hpm
      rcases List.mem_cons.mp h2 with hpx | h2
      · exfalso
        have := hkmk p hpm
        rw [hpx, he] at this
        exact hpk (by simpa using this.symm)
      · exact h2
    · intro p hp
      rcases mem_kmDelete _ _ _ hp with ⟨hpm, _⟩
      have h3 := hkmk p hpm
      rw [modifyE_key_map _ x (fun z => { z with newer := none, older := none })
            (fun _ => rfl) p.2,
          modifyE_key_map _ r0 (fun z => { z with older := none }) (fun _ => rfl) p.2]
      exact h3
  · refine ⟨?_, ?_, ?_, ?_, e, ?_, ?_⟩
    · trivial
    · trivial
    · trivial
    · simp [modifyE_length]
    · simp [he]
    · rw [modifyE_getElem?_self, modifyE_getElem?_ne _ _ _ _ (Ne.symm hxr0), he]
      rfl

/-! ## Characterization of `putLink` (the insertion part of `put`) -/

/-- On a well-formed cache, the insertion step of `put` appends the fresh
entry (arena index `c.store.length`) to the chain, leaves `size` and
`limit` alone, binds `key` to the fresh entry in the keymap, and gives
the fresh entry links `newer = none`, `older = ` old tail. -/
theorem putLink_chain (c : LRUCache V) (L : List Nat) (k : String) (v : V)
    (hcw : ChainWF c L) :
    ChainWF (putLink c k v) (L ++ [c.store.length]) ∧
    (putLink c k v).size = c.size ∧ (putLink c k v).limit = c.limit ∧
    (putLink c k v).store.length = c.store.length + 1 ∧
    kmLookup (putLink c k v).keymap k = some c.store.length ∧
    (putLink c k v).store[c.store.length]? =
      some { newer := none, older := lastOr L none, key := k, value := v } := by
  obtain ⟨hh, ht, hseg, hnd, hkmm, hkmk, hkmn⟩ := hcw
  unfold putLink
  cases hL : L.getLast? with
  | none =>
    have hLnil : L = [] := List.getLast?_eq_none_iff.mp hL
    subst hLnil
    rw [ht, hL]
    have hget : (c.store ++ [({ newer := none, older := none, key := k, value := v } : Entry V)])[c.store.length]? =
        some { newer := none, older := none, key := k, value := v } := getElem?_append_len _ _
    refine ⟨⟨rfl, rfl, ?_, by simp, ?_, ?_, kmUpdate_keys_nodup _ _ _ hkmn⟩,
      rfl, rfl, by simp, kmLookup_update_self _ _ _, ?_⟩
    · rw [List.nil_append]
      apply (seg_cons_iff _ _ _ _ _).mpr
      exact ⟨_, hget, rfl, rfl, seg_nil _ _ _⟩
    · intro p hp
      rcases mem_kmUpdate _ _ _ _ hp with rfl | hpm
      · simp
      · exact absurd (hkmm p hpm) (by simp)
    · intro p hp
      rcases mem_kmUpdate _ _ _ _ hp with rfl | hpm
      · rw [hget]
        rfl
      · exact absurd (hkmm p hpm) (by simp)
    · rw [hget]
      simp [lastOr]
  | some t =>
    rw [ht, hL]
    have hLne : L ≠ [] := by
      intro hcon
      rw [hcon] at hL
      exact Option.noConfusion hL
    have htmem : t ∈ L := by
      have := List.dropLast_append_getLast? t hL
      rw [← this]
      exact List.mem_append.mpr (Or.inr (List.mem_singleton.mpr rfl))
    have htlt : t < c.store.length := seg_lt_length_of_mem _ _ _ _ hseg t htmem
    have hteid : t ≠ c.store.length := Nat.ne_of_lt htlt
    have hmemlt : ∀ j ∈ L, j < c.store.length := seg_lt_length_of_mem _ _ _ _ hseg
    have heidmem : c.store.length ∉ L := fun hcon => Nat.lt_irrefl _ (hmemlt _ hcon)
    -- arena facts after the two link updates
    have hst1 : ∀ j ∈ L, (c.store ++ [({ newer := none, older := none, key := k, value := v } : Entry V)])[j]? = c.store[j]? :=
      fun j hj => getElem?_append_left2 _ _ _ (hmemlt j hj)
    rcases seg_getElem?_of_mem _ _ _ _ hseg t htmem with ⟨et, het⟩
    have hst2t : (modifyE (modifyE (c.store ++ [({ newer := none, older := none, key := k, value := v } : Entry V)]) t
        (fun x => { x with newer := some c.store.length })) c.store.length
        (fun x => { x with older := some t }))[t]? = some { et with newer := some c.store.length } := by
      rw [modifyE_getElem?_ne _ _ _ _ (Ne.symm hteid), modifyE_getElem?_self, hst1 t htmem, het]
      rfl
    have hst2eid : (modifyE (modifyE (c.store ++ [({ newer := none, older := none, key := k, value := v } : Entry V)]) t
        (fun x => { x with newer := some c.store.length })) c.store.length
        (fun x => { x with older := some t }))[c.store.length]? =
        some { newer := none, older := some t, key := k, value := v } := by
      rw [modifyE_getElem?_self, modifyE_getElem?_ne _ _ _ _ hteid, getElem?_append_len]
      rfl
    have hst2other : ∀ j ∈ L, j ≠ t →
        (modifyE (modifyE (c.store ++ [({ newer := none, older := none, key := k, value := v } : Entry V)]) t
        (fun x => { x with newer := some c.store.length })) c.store.length
        (fun x => { x with older := some t }))[j]? = c.store[j]? := by
      intro j hj hjt
      rw [modifyE_getElem?_ne _ _ _ _ (fun hcon => Nat.lt_irrefl _ (hcon ▸ hmemlt j hj)),
        modifyE_getElem?_ne _ _ _ _ (Ne.symm hjt), hst1 j hj]
    refine ⟨⟨?_, ?_, ?_, ?_, ?_, ?_, kmUpdate_keys_nodup _ _ _ hkmn⟩,
      rfl, rfl, by simp [modifyE_length], kmLookup_update_self _ _ _, ?_⟩
    · -- head is unchanged and L is nonempty
      cases L with
      | nil => exact absurd rfl hLne
      | cons a L2 => simpa using hh
    · rw [List.getLast?_concat]
    · -- the chain: L with the old tail relinked, then the fresh entry
      rw [seg_append]
      rw [Bool.and_eq_true]
      constructor
      · -- seg over L with next pointer at the fresh id
        have hdl := List.dropLast_append_getLast? t hL
        rw [← hdl]
        rw [← hdl] at hseg hnd
        rw [seg_append] at hseg
        rw [Bool.and_eq_true] at hseg
        rcases hseg with ⟨hsegD, hsegT⟩
        have htD : t ∉ L.dropLast := by
          rcases List.nodup_append.mp hnd with ⟨-, -, hdisj⟩
          intro hcon
          exact hdisj hcon (List.mem_singleton.mpr rfl)
        rcases (seg_cons_iff _ _ _ _ _).mp hsegT with ⟨et2, het2, hot, hnt, -⟩
        have het2eq : et2 = et := by
          rw [het] at het2
          injection het2 with hinj
          exact hinj.symm
        rw [het2eq] at hot
        rw [seg_append, Bool.and_eq_true]
        constructor
        · refine Eq.trans (seg_congr c.store _ none (some t) L.dropLast ?_)
            (by simpa [nextLink] using hsegD)
          intro j hj
          have hjL : j ∈ L := by
            rw [← hdl]
            exact List.mem_append.mpr (Or.inl hj)
          exact hst2other j hjL (fun hcon => htD (hcon ▸ hj))
        · apply (seg_cons_iff _ _ _ _ _).mpr
          refine ⟨{ et with newer := some c.store.length }, ?_, hot, rfl, seg_nil _ _ _⟩
          have htL : t ∈ L := by
            rw [← hdl]
            exact List.mem_append.mpr (Or.inr (List.mem_singleton.mpr rfl))
          exact hst2t
      · -- the fresh entry hangs off the old tail
        apply (seg_cons_iff _ _ _ _ _).mpr
        refine ⟨{ newer := none, older := some t, key := k, value := v }, hst2eid, ?_, rfl, seg_nil _ _ _⟩
        simp [lastOr, hL]
    · simp only [List.nodup_append]
      exact ⟨hnd, List.nodup_singleton _, fun a ha hb => heidmem ((List.mem_singleton.mp hb) ▸ ha)⟩
    · intro p hp
      rcases mem_kmUpdate _ _ _ _ hp with rfl | hpm
      · exact List.mem_append.mpr (Or.inr (List.mem_singleton.mpr rfl))
      · exact List.mem_append.mpr (Or.inl (hkmm p hpm))
    · intro p hp
      rcases mem_kmUpdate _ _ _ _ hp with rfl | hpm
      · rw [hst2eid]
        rfl
      · by_cases hpt : p.2 = t
        · rw [hpt, hst2t]
          have := hkmk p hpm
          rw [hpt, het] at this
          simpa using this
        · rw [hst2other p.2 (hkmm p hpm) hpt]
          exact hkmk p hpm
    · rw [hst2eid]
      simp [lastOr, hL]

/-- The insertion step never changes the key or value stored at an
existing arena index. -/
theorem putLink_kv (c : LRUCache V) (k : String) (v : V) (j : Nat) (hj : j < c.store.length) :
    ((putLink c k v).store[j]?).map Entry.key = (c.store[j]?).map Entry.key ∧
    ((putLink c k v).store[j]?).map Entry.value = (c.store[j]?).map Entry.value := by
  unfold putLink
  cases htl : c.tail with
  | none =>
    simp only [htl]
    rw [getElem?_append_left2 _ _ _ hj]
    exact ⟨rfl, rfl⟩
  | some t =>
    simp only [htl]
    constructor
    · rw [modifyE_key_map _ _ (fun z => { z with older := some t }) (fun _ => rfl) j,
        modifyE_key_map _ _ (fun z => { z with newer := some c.store.length }) (fun _ => rfl) j,
        getElem?_append_left2 _ _ _ hj]
    · rw [modifyE_value_map _ _ (fun z => { z with older := some t }) (fun _ => rfl) j,
        modifyE_value_map _ _ (fun z => { z with newer := some c.store.length }) (fun _ => rfl) j,
        getElem?_append_left2 _ _ _ hj]

/-! ## Characterization of `get` (the touch operation) -/

theorem getRef_absent (c : LRUCache V) (k : String) (h : kmLookup c.keymap k = none) :
    getRef c k = (c, none) := by
  unfold getRef
  rw [h]

theorem getRef_fastpath (c : LRUCache V) (k : String) (eid : Nat)
    (hk : kmLookup c.keymap k = some eid) (ht : c.tail = some eid) :
    getRef c k = (c, some eid) := by
  unfold getRef
  simp only [hk]
  rw [if_pos ht]

/-- The touch path of `get`: the entry `eid` (found under `k`, not the
tail) is unlinked from its position between `A` and `B` and relinked at
the tail; everything else about the cache is unchanged. -/
theorem getRef_touch (c : LRUCache V) (A B : List Nat) (k : String) (eid : Nat)
    (hcw : ChainWF c (A ++ eid :: B)) (hk : kmLookup c.keymap k = some eid)
    (hBne : B ≠ []) :
    ChainWF (getRef c k).1 (A ++ B ++ [eid]) ∧
    (getRef c k).1.size = c.size ∧ (getRef c k).1.limit = c.limit ∧
    (getRef c k).1.keymap = c.keymap ∧
    (getRef c k).1.store.length = c.store.length ∧
    (getRef c k).2 = some eid := by
  obtain ⟨hh, ht, hseg, hnd, hkmm, hkmk, hkmn⟩ := hcw
  cases B with
  | nil => exact absurd rfl hBne
  | cons b0 B2 =>
  -- decompose the chain
  rw [seg_append, Bool.and_eq_true] at hseg
  rcases hseg with ⟨hsegA, hsegR⟩
  rcases (seg_cons_iff _ _ _ _ _).mp hsegR with ⟨e, he, hold, hnew, hsegB⟩
  have hnewb : e.newer = some b0 := hnew
  -- nodup bookkeeping
  rcases List.nodup_append.mp hnd with ⟨hndA, hndR, hdisj⟩
  rcases List.nodup_cons.mp hndR with ⟨heidB, hndB⟩
  rcases List.nodup_cons.mp hndB with ⟨hb0B2, hndB2⟩
  have hb0eid : b0 ≠ eid := fun hcon => heidB (hcon ▸ List.mem_cons_self _ _)
  -- the old tail tl is the last element of b0 :: B2
  obtain ⟨tl, htlB⟩ : ∃ tl, (b0 :: B2).getLast? = some tl :=
    ⟨_, List.getLast?_eq_getLast_of_ne_nil (List.cons_ne_nil _ _)⟩
  have htlmem : tl ∈ b0 :: B2 := by
    have hd := List.dropLast_append_getLast? tl htlB
    rw [← hd]
    exact List.mem_append.mpr (Or.inr (List.mem_singleton.mpr rfl))
  have htleid : tl ≠ eid := fun hcon => heidB (hcon ▸ htlmem)
  have htl : c.tail = some tl := by
    rw [ht, List.getLast?_append_of_ne_nil _ (List.cons_ne_nil _ _),
      List.getLast?_cons_cons, htlB]
  have hne : ¬(c.tail = some eid) := by
    rw [htl]
    intro hcon
    injection hcon with hcon2
    exact htleid hcon2
  cases A with
  | nil =>
    -- the touched entry is the head: e.older = none, head moves to b0
    have holdn : e.older = none := hold
    have hheid : c.head = some eid := by simpa using hh
    unfold getRef
    simp only [hk]
    rw [if_neg hne]
    simp only [he, hnewb, holdn, htl, if_pos hheid]
    simp only [List.nil_append]
    -- store facts
    have hSTeid : (modifyE (modifyE (modifyE c.store b0 (fun x => { x with older := none })) eid
        (fun x => { x with newer := none, older := some tl })) tl
        (fun x => { x with newer := some eid }))[eid]? =
        some { newer := none, older := some tl, key := e.key, value := e.value } := by
      rw [modifyE_getElem?_ne _ _ _ _ htleid, modifyE_getElem?_self,
        modifyE_getElem?_ne _ _ _ _ hb0eid, he]
      rfl
    have hSTother : ∀ j, j ∈ b0 :: B2 → j ≠ tl →
        (modifyE (modifyE (modifyE c.store b0 (fun x => { x with older := none })) eid
        (fun x => { x with newer := none, older := some tl })) tl
        (fun x => { x with newer := some eid }))[j]? =
        (modifyE c.store b0 (fun x => { x with older := none }))[j]? := by
      intro j hj hjtl
      have hjeid : j ≠ eid := fun hcon => heidB (hcon ▸ hj)
      rw [modifyE_getElem?_ne _ _ _ _ (Ne.symm hjtl), modifyE_getElem?_ne _ _ _ _ (Ne.symm hjeid)]
    have hSTtl : ∀ e2, (modifyE c.store b0 (fun x => { x with older := none }))[tl]? = some e2 →
        (modifyE (modifyE (modifyE c.store b0 (fun x => { x with older := none })) eid
        (fun x => { x with newer := none, older := some tl })) tl
        (fun x => { x with newer := some eid }))[tl]? =
        some { e2 with newer := some eid } := by
      intro e2 he2
      rw [modifyE_getElem?_self, modifyE_getElem?_ne _ _ _ _ (Ne.symm htleid), he2]
      rfl
    refine ⟨⟨rfl, ?_, ?_, ?_, ?_, ?_, hkmn⟩, by trivial, by trivial, by trivial,
      by simp [modifyE_length], by trivial⟩
    · rw [List.getLast?_concat]
    · -- the chain is b0 :: B2 then eid
      rw [seg_append, Bool.and_eq_true]
      constructor
      · -- seg over b0 :: B2, re-rooted at none, re-targeted at eid
        refine seg_retarget (modifyE c.store b0 (fun x => { x with older := none })) _
          none none (some eid) (b0 :: B2) tl htlB hndB ?_ hSTother hSTtl
        exact seg_older_first c.store (some eid) none none b0 B2 hb0B2 hsegB
      · apply (seg_cons_iff _ _ _ _ _).mpr
        refine ⟨{ newer := none, older := some tl, key := e.key, value := e.value },
          hSTeid, ?_, rfl, seg_nil _ _ _⟩
        simp [lastOr, htlB]
    · simp only [List.nodup_append]
      exact ⟨hndB, List.nodup_singleton _,
        fun x hx hy => heidB ((List.mem_singleton.mp hy) ▸ hx)⟩
    · intro p hp
      have h2 := hkmm p hp
      simp only [List.nil_append] at h2
      rcases List.mem_cons.mp h2 with hpe | h2
      · exact List.mem_append.mpr (Or.inr (by simp [hpe]))
      · exact List.mem_append.mpr (Or.inl h2)
    · intro p hp
      rw [modKey_newer, modKey_both, modKey_older]
      exact hkmk p hp
  | cons a A2 =>
    -- the touched entry has an older neighbor o = (a :: A2).getLast
    obtain ⟨o, hAo⟩ : ∃ o, (a :: A2).getLast? = some o :=
      ⟨_, List.getLast?_eq_getLast_of_ne_nil (List.cons_ne_nil _ _)⟩
    have homem : o ∈ a :: A2 := by
      have hd := List.dropLast_append_getLast? o hAo
      rw [← hd]
      exact List.mem_append.mpr (Or.inr (List.mem_singleton.mpr rfl))
    have holdo : e.older = some o := by
      rw [hold]
      unfold lastOr
      rw [hAo]
    have hoeid : o ≠ eid := fun hcon =>
      (hdisj homem) (hcon ▸ List.mem_cons_self _ _)
    have hoB : o ∉ b0 :: B2 := fun hcon =>
      hdisj homem (List.mem_cons_of_mem _ hcon)
    have hob0 : o ≠ b0 := fun hcon => hoB (hcon ▸ List.mem_cons_self _ _)
    have hotl : o ≠ tl := fun hcon => hoB (hcon ▸ htlmem)
    have haeid : a ≠ eid := fun hcon =>
      (hdisj (List.mem_cons_self _ _)) (hcon ▸ List.mem_cons_self _ _)
    have hheada : c.head = some a := by simpa using hh
    have hheadne : ¬(c.head = some eid) := by
      rw [hheada]
      intro hcon
      injection hcon with hcon2
      exact haeid hcon2
    unfold getRef
    simp only [hk]
    rw [if_neg hne]
    simp only [he, hnewb, holdo, htl, if_neg hheadne]
    -- store facts: updates at b0 (older := some o), o (newer := some b0),
    -- eid (cleared, older := some tl), tl (newer := some eid)
    have hSTAagree : ∀ j, j ∈ a :: A2 → j ≠ o →
        (modifyE (modifyE (modifyE (modifyE c.store b0 (fun x => { x with older := some o })) o
        (fun x => { x with newer := some b0 })) eid
        (fun x => { x with newer := none, older := some tl })) tl
        (fun x => { x with newer := some eid }))[j]? = c.store[j]? := by
      intro j hj hjo
      have hjB : j ∉ b0 :: B2 := fun hcon => hdisj hj (List.mem_cons_of_mem _ hcon)
      have hjeid : j ≠ eid := fun hcon => hdisj hj (by rw [← hcon]; exact List.mem_cons_self _ _)
      have hjtl : tl ≠ j := fun hcon => hjB (by rw [← hcon]; exact htlmem)
      have hjb0 : b0 ≠ j := fun hcon => hjB (by rw [← hcon]; exact List.mem_cons_self _ _)
      rw [modifyE_getElem?_ne _ _ _ _ hjtl,
        modifyE_getElem?_ne _ _ _ _ (Ne.symm hjeid),
        modifyE_getElem?_ne _ _ _ _ (Ne.symm hjo),
        modifyE_getElem?_ne _ _ _ _ hjb0]
    have hSTAlast : ∀ e2, c.store[o]? = some e2 →
        (modifyE (modifyE (modifyE (modifyE c.store b0 (fun x => { x with older := some o })) o
        (fun x => { x with newer := some b0 })) eid
        (fun x => { x with newer := none, older := some tl })) tl
        (fun x => { x with newer := some eid }))[o]? = some { e2 with newer := some b0 } := by
      intro e2 he2
      rw [modifyE_getElem?_ne _ _ _ _ (Ne.symm hotl), modifyE_getElem?_ne _ _ _ _ (Ne.symm hoeid),
        modifyE_getElem?_self, modifyE_getElem?_ne _ _ _ _ (Ne.symm hob0), he2]
      rfl
    have hSTBagree : ∀ j, j ∈ b0 :: B2 → j ≠ tl →
        (modifyE (modifyE (modifyE (modifyE c.store b0 (fun x => { x with older := some o })) o
        (fun x => { x with newer := some b0 })) eid
        (fun x => { x with newer := none, older := some tl })) tl
        (fun x => { x with newer := some eid }))[j]? =
        (modifyE c.store b0 (fun x => { x with older := some o }))[j]? := by
      intro j hj hjtl
      have hjeid : j ≠ eid := fun hcon => heidB (hcon ▸ hj)
      have hoj : o ≠ j := fun hcon => hoB (by rw [hcon]; exact hj)
      rw [modifyE_getElem?_ne _ _ _ _ (Ne.symm hjtl), modifyE_getElem?_ne _ _ _ _ (Ne.symm hjeid),
        modifyE_getElem?_ne _ _ _ _ hoj]
    have hSTBlast : ∀ e2,
        (modifyE c.store b0 (fun x => { x with older := some o }))[tl]? = some e2 →
        (modifyE (modifyE (modifyE (modifyE c.store b0 (fun x => { x with older := some o })) o
        (fun x => { x with newer := some b0 })) eid
        (fun x => { x with newer := none, older := some tl })) tl
        (fun x => { x with newer := some eid }))[tl]? = some { e2 with newer := some eid } := by
      intro e2 he2
      rw [modifyE_getElem?_self, modifyE_getElem?_ne _ _ _ _ (Ne.symm htleid),
        modifyE_getElem?_ne _ _ _ _ hotl, he2]
      rfl
    have hSTeid : (modifyE (modifyE (modifyE (modifyE c.store b0 (fun x => { x with older := some o })) o
        (fun x => { x with newer := some b0 })) eid
        (fun x => { x with newer := none, older := some tl })) tl
        (fun x => { x with newer := some eid }))[eid]? =
        some { newer := none, older := some tl, key := e.key, value := e.value } := by
      rw [modifyE_getElem?_ne _ _ _ _ htleid, modifyE_getElem?_self,
        modifyE_getElem?_ne _ _ _ _ hoeid, modifyE_getElem?_ne _ _ _ _ hb0eid, he]
      rfl
    refine ⟨⟨by simpa using hheada, ?_, ?_, ?_, ?_, ?_, hkmn⟩,
      by trivial, by trivial, by trivial, by simp [modifyE_length], by trivial⟩
    · rw [List.getLast?_concat]
    · -- the chain: a :: A2, then b0 :: B2, then eid
      rw [List.append_assoc, seg_append, Bool.and_eq_true]
      constructor
      · -- the A part, retargeted from eid to b0
        refine seg_retarget c.store _ none (some eid) (nextLink ((b0 :: B2) ++ [eid]) none)
          (a :: A2) o hAo hndA hsegA hSTAagree ?_
        intro e2 he2
        exact hSTAlast e2 he2
      · rw [seg_append, Bool.and_eq_true]
        constructor
        · -- the B part, re-rooted at o and retargeted at eid
          refine seg_retarget (modifyE c.store b0 (fun x => { x with older := some o })) _
            (lastOr (a :: A2) none) none (nextLink [eid] none) (b0 :: B2) tl htlB hndB
            ?_ hSTBagree hSTBlast
          have hq : lastOr (a :: A2) none = some o := by
            unfold lastOr
            rw [hAo]
          rw [hq]
          exact seg_older_first c.store (some eid) (some o) none b0 B2 hb0B2 hsegB
        · apply (seg_cons_iff _ _ _ _ _).mpr
          refine ⟨{ newer := none, older := some tl, key := e.key, value := e.value },
            hSTeid, ?_, rfl, seg_nil _ _ _⟩
          unfold lastOr
          rw [htlB]
    · -- no duplicates in the permuted chain
      have hperm : List.Perm ((a :: A2) ++ eid :: b0 :: B2) ((a :: A2) ++ (b0 :: B2) ++ [eid]) := by
        rw [List.append_assoc]
        exact List.Perm.append_left _ (List.perm_append_singleton _ _).symm
      exact hperm.nodup hnd
    · intro p hp
      have h2 := hkmm p hp
      have hperm : List.Perm ((a :: A2) ++ eid :: b0 :: B2) ((a :: A2) ++ (b0 :: B2) ++ [eid]) := by
        rw [List.append_assoc]
        exact List.Perm.append_left _ (List.perm_append_singleton _ _).symm
      exact hperm.mem_iff.mp h2
    · intro p hp
      rw [modKey_newer, modKey_both, modKey_newer, modKey_older]
      exact hkmk p hp

/-! ## Characterization of `remove` -/

theorem remove_absent (c : LRUCache V) (k : String) (h : kmLookup c.keymap k = none) :
    remove c k = (c, none) := by
  unfold remove
  rw [h]

/-- `remove` on a key bound (in the keymap) to the chain entry `eid`
sitting between `A` and `B`: the entry is bridged out of the chain, its
key leaves the keymap, `size` drops by one, and its value is returned. -/
theorem remove_present (c : LRUCache V) (A B : List Nat) (k : String) (eid : Nat)
    (hwf : WF c (A ++ eid :: B)) (hk : kmLookup c.keymap k = some eid) :
    WF (remove c k).1 (A ++ B) ∧
    (remove c k).1.limit = c.limit ∧
    (remove c k).1.size = c.size - 1 ∧
    (remove c k).1.store.length = c.store.length ∧
    kmLookup (remove c k).1.keymap k = none ∧
    (∀ s, s ∈ keys (remove c k).1 → s ≠ k) ∧
    ∃ e, c.store[eid]? = some e ∧ (remove c k).2 = some e.value := by
  obtain ⟨⟨hh, ht, hseg, hnd, hkmm, hkmk, hkmn⟩, hsz⟩ := hwf
  rw [seg_append, Bool.and_eq_true] at hseg
  rcases hseg with ⟨hsegA, hsegR⟩
  rcases (seg_cons_iff _ _ _ _ _).mp hsegR with ⟨e, he, hold, hnew, hsegB⟩
  rcases List.nodup_append.mp hnd with ⟨hndA, hndR, hdisj⟩
  rcases List.nodup_cons.mp hndR with ⟨heidB, hndB⟩
  -- the deleted key is the entry's key
  have hek : e.key = k := by
    have hpmem := kmLookup_mem _ _ _ hk
    have h2 := hkmk _ hpmem
    rw [he] at h2
    injection h2 with h3
  -- the new size
  have hsize : c.size - 1 = ((A ++ B).length : Int) := by
    rw [hsz]
    simp only [List.length_append, List.length_cons]
    push_cast
    ring
  -- keymap facts shared by all four cases
  have hkmdel : kmLookup (kmDelete c.keymap e.key) k = none := by
    rw [hek]
    exact kmLookup_delete_self _ _
  have hkeys : ∀ s, s ∈ (kmDelete c.keymap e.key).map (·.1) → s ≠ k := by
    intro s hs
    rcases List.mem_map.mp hs with ⟨p, hp, rfl⟩
    rcases mem_kmDelete _ _ _ hp with ⟨-, hps⟩
    rw [← hek]
    exact hps
  have hkmm2 : ∀ p ∈ kmDelete c.keymap e.key, p.2 ∈ A ++ B := by
    intro p hp
    rcases mem_kmDelete _ _ _ hp with ⟨hpm, hps⟩
    have h2 := hkmm p hpm
    have hpeid : p.2 ≠ eid := by
      intro hcon
      have h3 := hkmk p hpm
      rw [hcon, he] at h3
      injection h3 with h4
      exact hps h4.symm
    rcases List.mem_append.mp h2 with h2 | h2
    · exact List.mem_append.mpr (Or.inl h2)
    · rcases List.mem_cons.mp h2 with h2 | h2
      · exact absurd h2 hpeid
      · exact List.mem_append.mpr (Or.inr h2)
  have hkmn2 : ((kmDelete c.keymap e.key).map (·.1)).Nodup := kmDelete_keys_nodup _ _ hkmn
  have hnd2 : (A ++ B).Nodup := by
    simp only [List.nodup_append]
    refine ⟨hndA, (List.nodup_cons.mp hndR).2, fun x hx hy => hdisj hx (List.mem_cons_of_mem _ hy)⟩
  unfold remove
  simp only [hk, he]
  cases B with
  | nil =>
    have hnewn : e.newer = none := hnew
    cases A with
    | nil =>
      -- sole entry: cache becomes empty
      have holdn : e.older = none := hold
      simp only [hnewn, holdn]
      refine ⟨⟨⟨rfl, rfl, seg_nil _ _ _, by simp, hkmm2, ?_, hkmn2⟩, hsize⟩,
        by trivial, by trivial, by trivial, hkmdel, hkeys, e, by trivial, by trivial⟩
      intro p hp
      exact absurd (hkmm2 p hp) (by simp)
    | cons a A2 =>
      -- last entry: tail moves to o = (a :: A2).getLast
      obtain ⟨o, hAo⟩ : ∃ o, (a :: A2).getLast? = some o :=
        ⟨_, List.getLast?_eq_getLast_of_ne_nil (List.cons_ne_nil _ _)⟩
      have homem : o ∈ a :: A2 := by
        have hd := List.dropLast_append_getLast? o hAo
        rw [← hd]
        exact List.mem_append.mpr (Or.inr (List.mem_singleton.mpr rfl))
      have holdo : e.older = some o := by
        rw [hold]
        unfold lastOr
        rw [hAo]
      have hoeid : o ≠ eid := fun hcon => hdisj homem (hcon ▸ List.mem_cons_self _ _)
      simp only [hnewn, holdo]
      have hSTlast : ∀ e2, c.store[o]? = some e2 →
          (modifyE c.store o (fun x => { x with newer := none }))[o]? =
          some { e2 with newer := none } := by
        intro e2 he2
        rw [modifyE_getElem?_self, he2]
        rfl
      refine ⟨⟨⟨?_, ?_, ?_, by simpa using hnd2, by simpa using hkmm2, ?_, hkmn2⟩, ?_⟩,
        by trivial, by trivial, by simp [modifyE_length], hkmdel, hkeys, e, by trivial, by trivial⟩
      · simpa using hh
      · rw [List.append_nil, hAo]
      · rw [List.append_nil]
        refine seg_retarget c.store _ none (some eid) none (a :: A2) o hAo hndA hsegA ?_ hSTlast
        intro j hj hjo
        exact modifyE_getElem?_ne _ _ _ _ (Ne.symm hjo)
      · intro p hp
        rw [modKey_newer]
        exact hkmk p (mem_kmDelete _ _ _ hp).1
      · rw [hsize]
  | cons b0 B2 =>
    have hnewb : e.newer = some b0 := hnew
    have hb0eid : b0 ≠ eid := fun hcon => heidB (hcon ▸ List.mem_cons_self _ _)
    rcases List.nodup_cons.mp hndB with ⟨hb0B2, hndB2⟩
    cases A with
    | nil =>
      -- first entry: head moves to b0
      have holdn : e.older = none := hold
      simp only [hnewb, holdn]
      refine ⟨⟨⟨rfl, ?_, ?_, by simpa using hnd2, by simpa using hkmm2, ?_, hkmn2⟩, ?_⟩,
        by trivial, by trivial, by simp [modifyE_length], hkmdel, hkeys, e, by trivial, by trivial⟩
      · simpa using ht
      · simp only [List.nil_append]
        exact seg_older_first c.store (some eid) none none b0 B2 hb0B2 hsegB
      · intro p hp
        rw [modKey_older]
        exact hkmk p (mem_kmDelete _ _ _ hp).1
      · rw [hsize]
    | cons a A2 =>
      -- middle entry: bridge o and b0
      obtain ⟨o, hAo⟩ : ∃ o, (a :: A2).getLast? = some o :=
        ⟨_, List.getLast?_eq_getLast_of_ne_nil (List.cons_ne_nil _ _)⟩
      have homem : o ∈ a :: A2 := by
        have hd := List.dropLast_append_getLast? o hAo
        rw [← hd]
        exact List.mem_append.mpr (Or.inr (List.mem_singleton.mpr rfl))
      have holdo : e.older = some o := by
        rw [hold]
        unfold lastOr
        rw [hAo]
      have hoeid : o ≠ eid := fun hcon => hdisj homem (hcon ▸ List.mem_cons_self _ _)
      have hoB : o ∉ b0 :: B2 := fun hcon => hdisj homem (List.mem_cons_of_mem _ hcon)
      have hob0 : o ≠ b0 := fun hcon => hoB (hcon ▸ List.mem_cons_self _ _)
      simp only [hnewb, holdo]
      have hSTlast : ∀ e2, c.store[o]? = some e2 →
          (modifyE (modifyE c.store o (fun x => { x with newer := some b0 })) b0
            (fun x => { x with older := some o }))[o]? = some { e2 with newer := some b0 } := by
        intro e2 he2
        rw [modifyE_getElem?_ne _ _ _ _ (Ne.symm hob0), modifyE_getElem?_self, he2]
        rfl
      refine ⟨⟨⟨by simpa using hh, ?_, ?_, hnd2, hkmm2, ?_, hkmn2⟩, ?_⟩,
        by trivial, by trivial, by simp [modifyE_length], hkmdel, hkeys, e, by trivial, by trivial⟩
      · rw [ht, List.getLast?_append_of_ne_nil _ (List.cons_ne_nil _ _),
          List.getLast?_append_of_ne_nil _ (List.cons_ne_nil _ _), List.getLast?_cons_cons]
      · -- bridged chain
        rw [seg_append, Bool.and_eq_true]
        constructor
        · refine seg_retarget c.store _ none (some eid) (nextLink (b0 :: B2) none)
            (a :: A2) o hAo hndA hsegA ?_ hSTlast
          intro j hj hjo
          have hjB : j ∉ b0 :: B2 := fun hcon => hdisj hj (List.mem_cons_of_mem _ hcon)
          have hjb0 : b0 ≠ j := fun hcon => hjB (by rw [← hcon]; exact List.mem_cons_self _ _)
          rw [modifyE_getElem?_ne _ _ _ _ hjb0, modifyE_getElem?_ne _ _ _ _ (Ne.symm hjo)]
        · have hq : lastOr (a :: A2) none = some o := by
            unfold lastOr
            rw [hAo]
          rw [hq]
          have hbase := seg_older_first c.store (some eid) (some o) none b0 B2 hb0B2 hsegB
          refine Eq.trans (seg_congr (modifyE c.store b0 (fun x => { x with older := some o })) _
            (some o) none (b0 :: B2) ?_) hbase
          intro j hj
          by_cases hjb0 : j = b0
          · subst hjb0
            rw [modifyE_getElem?_self, modifyE_getElem?_ne _ _ _ _ hob0,
              modifyE_getElem?_self]
          · rw [modifyE_getElem?_ne _ _ _ _ (Ne.symm hjb0),
              modifyE_getElem?_ne _ _ _ _ (fun hcon => hoB (by rw [hcon]; exact hj)),
              modifyE_getElem?_ne _ _ _ _ (Ne.symm hjb0)]
      · intro p hp
        rw [modKey_older, modKey_newer]
        exact hkmk p (mem_kmDelete _ _ _ hp).1
      · rw [hsize]

/-! ## Value updates and `removeAll` -/

theorem seg_congr_value (st : List (Entry V)) (i : Nat) (v : V) (p n : Option Nat)
    (L : List Nat) :
    seg (modifyE st i (fun x => { x with value := v })) p L n = seg st p L n := by
  induction L generalizing p with
  | nil => rfl
  | cons j rest ih =>
    rw [seg_cons, seg_cons, modifyE_getElem?]
    by_cases hij : i = j
    · rw [if_pos hij]
      cases hji : st[j]? with
      | none => rfl
      | some e => simp [ih]
    · rw [if_neg hij]
      cases hji : st[j]? with
      | none => rfl
      | some e => simp [ih]

/-- Overwriting the payload of one arena entry preserves the structural
invariant (links and keys are untouched). -/
theorem updValue_ChainWF (c : LRUCache V) (L : List Nat) (eid : Nat) (v : V)
    (hcw : ChainWF c L) :
    ChainWF { c with store := modifyE c.store eid (fun x => { x with value := v }) } L := by
  obtain ⟨hh, ht, hseg, hnd, hkmm, hkmk, hkmn⟩ := hcw
  refine ⟨hh, ht, ?_, hnd, hkmm, ?_, hkmn⟩
  · rw [seg_congr_value]
    exact hseg
  · intro p hp
    rw [modifyE_key_map _ _ (fun x => { x with value := v }) (fun _ => rfl)]
    exact hkmk p hp

/-- `removeAll` resets to the empty well-formed state (the arena keeps the
garbage entries, unobservable through the API). -/
theorem removeAll_WF (c : LRUCache V) : WF (removeAll c) [] := by
  refine ⟨⟨rfl, rfl, seg_nil _ _ _, List.nodup_nil, ?_, ?_, List.nodup_nil⟩, rfl⟩ <;>
    intro p hp <;> exact absurd hp (List.not_mem_nil p)

/-! ## Characterization of `put` -/

/-- Full case analysis of `put` on a well-formed cache (with the proviso,
needed because `put` breaks down on an empty full cache, that a full
cache has a non-empty chain — true whenever `limit ≥ 1`):

* no room check fails (`size ≠ limit`): the fresh entry joins the chain at
  the tail, `size` goes up by one, nothing is returned;
* `size = limit`: the fresh entry joins at the tail and the pre-`put` head
  entry is evicted and returned (links cleared, key and value intact);
  `size` does not change. -/
theorem shift_fields (c : LRUCache V) :
    (shift c).1.limit = c.limit ∧ (shift c).1.size = c.size ∧ (shift c).1.tail = c.tail := by
  unfold shift
  cases hh : c.head with
  | none => exact ⟨rfl, rfl, rfl⟩
  | some h =>
    cases he : c.store[h]? with
    | none => simp [he]
    | some e =>
      cases hn : e.newer <;> simp [he, hn]

theorem put_cases (c : LRUCache V) (L : List Nat) (k : String) (v : V) (hwf : WF c L)
    (hne : c.size = c.limit → L ≠ []) :
    (put c k v).1.limit = c.limit ∧
    (c.size ≠ c.limit →
       WF (put c k v).1 (L ++ [c.store.length]) ∧
       (put c k v).1.size = c.size + 1 ∧ (put c k v).2 = none) ∧
    (c.size = c.limit → ∀ x L2, L = x :: L2 →
       WF (put c k v).1 (L2 ++ [c.store.length]) ∧
       (put c k v).1.size = c.size ∧
       ∃ e, c.store[x]? = some e ∧
         (put c k v).2 = some { newer := none, older := none, key := e.key, value := e.value }) := by
  obtain ⟨hcw, hsz⟩ := hwf
  obtain ⟨hpcw, hpsz, hplim, hplen, hpkm, hpeid⟩ := putLink_chain c L k v hcw
  unfold put
  by_cases hfull : c.size = c.limit
  · rw [if_pos (by rw [hpsz, hplim]; exact hfull)]
    refine ⟨by rw [(shift_fields _).1, hplim], fun hcon => absurd hfull hcon, ?_⟩
    intro hfull2 x L2 hL
    subst hL
    cases hL2 : L2 ++ [c.store.length] with
    | nil => exact absurd hL2 (by simp)
    | cons r0 rest2 =>
      have hchain : ChainWF (putLink c k v) (x :: r0 :: rest2) := by
        rw [← hL2]
        exact hpcw
      obtain ⟨hscw, hssz, hslim, hstail, hslen, e3, he3, hret⟩ :=
        shift_chain (putLink c k v) x r0 rest2 hchain
      refine ⟨⟨hscw, ?_⟩, by rw [hssz, hpsz], ?_⟩
      · rw [hssz, hpsz, hsz]
        have hlen2 : (r0 :: rest2).length = L2.length + 1 := by
          rw [← hL2, List.length_append, List.length_singleton]
        rw [hlen2, List.length_cons]
      · have hxmem : x ∈ x :: L2 := List.mem_cons_self _ _
        have hxlt : x < c.store.length :=
          seg_lt_length_of_mem _ _ _ _ hcw.2.2.1 x hxmem
        rcases seg_getElem?_of_mem _ _ _ _ hcw.2.2.1 x hxmem with ⟨e, he⟩
        refine ⟨e, he, ?_⟩
        have hkv := putLink_kv c k v x hxlt
        rw [he3, he] at hkv
        simp at hkv
        rw [hret, hkv.1, hkv.2]
  · rw [if_neg (by rw [hpsz, hplim]; exact hfull)]
    refine ⟨by simp [hplim], fun hcon => ?_, fun hcon => absurd hcon hfull⟩
    refine ⟨⟨hpcw, ?_⟩, by rw [hpsz], rfl⟩
    rw [hpsz, hsz]
    simp

/-! ## Pure size accounting for `put` (no well-formedness needed) -/

theorem putLink_fields (c : LRUCache V) (k : String) (v : V) :
    (putLink c k v).size = c.size ∧ (putLink c k v).limit = c.limit := by
  unfold putLink
  cases htl : c.tail with
  | none => exact ⟨rfl, rfl⟩
  | some t => simp [htl]

theorem put_size_spec (c : LRUCache V) (k : String) (v : V) :
    (put c k v).1.limit = c.limit ∧
    (put c k v).1.size = (if c.size = c.limit then c.size else c.size + 1) := by
  have hpf := putLink_fields c k v
  have hsf := shift_fields (putLink c k v)
  unfold put
  by_cases hfull : c.size = c.limit
  · rw [if_pos (by rw [hpf.1, hpf.2]; exact hfull), if_pos hfull]
    exact ⟨by rw [hsf.1, hpf.2], by rw [hsf.2.1, hpf.1]⟩
  · rw [if_neg (by rw [hpf.1, hpf.2]; exact hfull), if_neg hfull]
    refine ⟨hpf.2, ?_⟩
    show (putLink c k v).size + 1 = c.size + 1
    rw [hpf.1]

/-- A finite sequence of `put` calls. -/
def applyPuts (c : LRUCache V) (ps : List (String × V)) : LRUCache V :=
  ps.foldl (fun c p => (put c p.1 p.2).1) c

theorem applyPuts_spec (c : LRUCache V) (ps : List (String × V)) (h : c.size ≤ c.limit) :
    (applyPuts c ps).limit = c.limit ∧ (applyPuts c ps).size ≤ c.limit := by
  induction ps generalizing c with
  | nil => exact ⟨rfl, h⟩
  | cons p ps ih =>
    have hs := put_size_spec c p.1 p.2
    have hstep : (put c p.1 p.2).1.size ≤ (put c p.1 p.2).1.limit := by
      rw [hs.1, hs.2]
      by_cases hfull : c.size = c.limit
      · rw [if_pos hfull]
        exact h
      · rw [if_neg hfull]
        omega
    have happ : applyPuts c (p :: ps) = applyPuts (put c p.1 p.2).1 ps := rfl
    rw [happ]
    obtain ⟨ih1, ih2⟩ := ih (put c p.1 p.2).1 hstep
    exact ⟨by rw [ih1, hs.1], by rw [← hs.1]; exact ih2⟩

/-- `shift` never changes the key or value stored at any arena index. -/
theorem shift_kv (c : LRUCache V) (j : Nat) :
    (((shift c).1.store[j]?).map Entry.key = (c.store[j]?).map Entry.key) ∧
    (((shift c).1.store[j]?).map Entry.value = (c.store[j]?).map Entry.value) := by
  unfold shift
  cases hh : c.head with
  | none => exact ⟨rfl, rfl⟩
  | some h =>
    cases he : c.store[h]? with
    | none => simp [he]
    | some e =>
      cases hn : e.newer with
      | none =>
        simp only [he, hn]
        exact ⟨modKey_both _ _ _ _ _, modValue_both _ _ _ _ _⟩
      | some n =>
        simp only [he, hn]
        constructor
        · rw [modKey_both, modKey_older]
        · rw [modValue_both, modValue_older]

/-! ## The head-to-tail traversal visits exactly the chain -/

/-- The `(key, value)` pairs of the entries at the given arena indices. -/
def entriesOf (st : List (Entry V)) (L : List Nat) : List (String × V) :=
  L.filterMap (fun i => (st[i]?).map (fun e => (e.key, e.value)))

theorem nextLink_none (L : List Nat) : nextLink L none = L.head? := by
  cases L <;> rfl

theorem traverse_seg (st : List (Entry V)) (p : Option Nat) (L : List Nat) (fuel : Nat)
    (hseg : seg st p L none = true) (hfuel : L.length ≤ fuel) :
    traverseNewer st fuel L.head? = entriesOf st L := by
  induction L generalizing p fuel with
  | nil => cases fuel <;> rfl
  | cons i rest ih =>
    rcases (seg_cons_iff _ _ _ _ _).mp hseg with ⟨e, he, -, hn, hrest⟩
    have hn2 : e.newer = rest.head? := by rw [hn, nextLink_none]
    cases fuel with
    | zero => simp at hfuel
    | succ f =>
      rw [List.head?_cons]
      have hstep : traverseNewer st (f + 1) (some i) =
          match st[i]? with
          | none => []
          | some e2 => (e2.key, e2.value) :: traverseNewer st f e2.newer := rfl
      rw [hstep]
      simp only [he]
      rw [hn2, ih (some i) f hrest (by simpa using hfuel)]
      simp [entriesOf, List.filterMap_cons, he]

/-- `put` on an empty, full cache (`limit = 0`): the fresh entry is
immediately self-evicted; `head` ends up `none` while `tail` is left
dangling at the fresh entry. -/
theorem put_empty_full (c : LRUCache V) (k : String) (v : V)
    (hwf : WF c []) (hfull : c.size = c.limit) :
    (put c k v).2 = some { newer := none, older := none, key := k, value := v } ∧
    (put c k v).1.head = none ∧
    (put c k v).1.tail = some c.store.length ∧
    (put c k v).1.size = c.size := by
  obtain ⟨⟨hh, ht, -, -, -, -, -⟩, hsz⟩ := hwf
  have hh2 : c.head = none := hh
  have ht2 : c.tail = none := ht
  unfold put putLink
  simp only [ht2]
  rw [if_pos (by exact hfull)]
  unfold shift
  simp only []
  have hget : (c.store ++ [({ newer := none, older := none, key := k, value := v } : Entry V)])[c.store.length]? =
      some { newer := none, older := none, key := k, value := v } := getElem?_append_len _ _
  simp only [hget]
  refine ⟨?_, by trivial, by trivial, by trivial⟩
  rw [modifyE_getElem?_self, hget]
  rfl

theorem putLink_keymap (c : LRUCache V) (k : String) (v : V) :
    (putLink c k v).keymap = kmUpdate c.keymap k c.store.length := by
  unfold putLink
  cases htl : c.tail with
  | none => rfl
  | some t => simp [htl]

theorem putLink_tail (c : LRUCache V) (k : String) (v : V) :
    (putLink c k v).tail = some c.store.length := by
  unfold putLink
  cases htl : c.tail with
  | none => rfl
  | some t => simp [htl]

theorem put_tail (c : LRUCache V) (k : String) (v : V) :
    (put c k v).1.tail = some c.store.length := by
  have hpf := putLink_fields c k v
  have hpt := putLink_tail c k v
  unfold put
  by_cases hfull : c.size = c.limit
  · rw [if_pos (by rw [hpf.1, hpf.2]; exact hfull), (shift_fields _).2.2, hpt]
  · rw [if_neg (by rw [hpf.1, hpf.2]; exact hfull)]
    exact hpt

theorem put_store (c : LRUCache V) (k : String) (v : V) :
    (put c k v).1.store =
      (if c.size = c.limit then (shift (putLink c k v)).1.store
       else (putLink c k v).store) := by
  have hpf := putLink_fields c k v
  unfold put
  by_cases hfull : c.size = c.limit
  · rw [if_pos (by rw [hpf.1, hpf.2]; exact hfull), if_pos hfull]
  · rw [if_neg (by rw [hpf.1, hpf.2]; exact hfull), if_neg hfull]

theorem put_keymap_nonevict (c : LRUCache V) (k : String) (v : V) (h : c.size ≠ c.limit) :
    (put c k v).1.keymap = kmUpdate c.keymap k c.store.length := by
  have hpf := putLink_fields c k v
  unfold put
  rw [if_neg (by rw [hpf.1, hpf.2]; exact h)]
  exact putLink_keymap c k v

theorem nodup_bounded_length (L : List Nat) (n : Nat) (hnd : L.Nodup)
    (hb : ∀ i ∈ L, i < n) : L.length ≤ n := by
  classical
  have h1 : L.toFinset ⊆ Finset.range n := by
    intro x hx
    rw [Finset.mem_range]
    exact hb x (List.mem_toFinset.mp hx)
  have h2 := Finset.card_le_card h1
  rw [Finset.card_range] at h2
  rw [← List.toFinset_card_of_nodup hnd]
  exact h2

/-- In the evicting branch (`size === limit`), `put` is literally the
insertion step followed by `shift`. -/
theorem put_eq_shift (c : LRUCache V) (k : String) (v : V) (hfull : c.size = c.limit) :
    put c k v = shift (putLink c k v) := by
  have hpf := putLink_fields c k v
  unfold put
  rw [if_pos (by rw [hpf.1, hpf.2]; exact hfull)]

/-- Membership in the entry listing of a chain, from the arena cell at a
member index. -/
theorem entriesOf_mem (st : List (Entry V)) (L : List Nat) (i : Nat) (kk : String) (vv : V)
    (hi : i ∈ L) (hk : (st[i]?).map Entry.key = some kk)
    (hv : (st[i]?).map Entry.value = some vv) :
    (kk, vv) ∈ entriesOf st L := by
  rcases hst : st[i]? with - | e2
  · rw [hst] at hk
    exact absurd hk (by simp)
  · rw [hst] at hk hv
    injection hk with hk2
    injection hv with hv2
    exact List.mem_filterMap.mpr ⟨i, hi, by simp [hst, hk2, hv2]⟩

/-- On a well-formed chain, the head-to-tail traversal visits exactly the
chain entries, in chain order. -/
theorem forEachList_eq_entriesOf (c : LRUCache V) (L : List Nat) (hcw : ChainWF c L) :
    forEachList c false = entriesOf c.store L := by
  have hh := hcw.1
  have hseg := hcw.2.2.1
  have hnd := hcw.2.2.2.1
  have hblt : ∀ j ∈ L, j < c.store.length := seg_lt_length_of_mem _ _ _ _ hseg
  have hfuel : L.length ≤ c.store.length + 1 :=
    le_trans (nodup_bounded_length _ _ hnd hblt) (Nat.le_succ _)
  show traverseNewer c.store (c.store.length + 1) c.head = entriesOf c.store L
  rw [hh]
  exact traverse_seg c.store none L (c.store.length + 1) hseg hfuel

/-- `put` (in either branch) never changes the key or value stored at a
pre-existing arena index. -/
theorem put_kv (c : LRUCache V) (k : String) (v : V) (j : Nat) (hj : j < c.store.length) :
    (((put c k v).1.store[j]?).map Entry.key = (c.store[j]?).map Entry.key) ∧
    (((put c k v).1.store[j]?).map Entry.value = (c.store[j]?).map Entry.value) := by
  have hplk := putLink_kv c k v j hj
  rw [put_store]
  by_cases hfull : c.size = c.limit
  · rw [if_pos hfull]
    have hsk := shift_kv (putLink c k v) j
    exact ⟨hsk.1.trans hplk.1, hsk.2.trans hplk.2⟩
  · rw [if_neg hfull]
    exact hplk

/-- After any `put key v` on a well-formed cache, the fresh arena cell
(index = old store length) carries `key` and `v`. -/
theorem put_new_kv (c : LRUCache V) (L : List Nat) (k : String) (v : V) (hcw : ChainWF c L) :
    ((put c k v).1.store[c.store.length]?).map Entry.key = some k ∧
    ((put c k v).1.store[c.store.length]?).map Entry.value = some v := by
  obtain ⟨-, -, -, -, -, hpeid⟩ := putLink_chain c L k v hcw
  rw [put_store]
  by_cases hfull : c.size = c.limit
  · rw [if_pos hfull]
    have hsk := shift_kv (putLink c k v) c.store.length
    constructor
    · rw [hsk.1, hpeid]
      rfl
    · rw [hsk.2, hpeid]
      rfl
  · rw [if_neg hfull]
    constructor
    · rw [hpeid]
      rfl
    · rw [hpeid]
      rfl

/-- In the evicting branch, the final keymap is the inserted binding
followed by deletion of the key carried by the evicted head entry. -/
theorem put_keymap_evict (c : LRUCache V) (k : String) (v : V) (hfull : c.size = c.limit)
    (x : Nat) (ex : Entry V) (hh : (putLink c k v).head = some x)
    (he : (putLink c k v).store[x]? = some ex) :
    (put c k v).1.keymap = kmDelete (kmUpdate c.keymap k c.store.length) ex.key := by
  rw [put_eq_shift c k v hfull]
  have hs := shift_spec (putLink c k v) x ex hh he
  rw [hs.2.2.2.2.1, putLink_keymap]

/-! ## Characterization of `set` -/

/-- On an absent key, `set` is `put` followed by projecting the evicted
entry (if any) to its value (the evicted entry object is always truthy
in JS, even when it is the entry that was just inserted). -/
theorem set_absent (c : LRUCache V) (k : String) (v : V)
    (h : kmLookup c.keymap k = none) :
    set c k v = ((put c k v).1, ((put c k v).2).map (·.value)) := by
  unfold set
  rw [getRef_absent c k h]

/-! ## Well-formedness preservation wrappers -/

theorem construct_WF (limit : Int) : WF (construct (V := V) limit) [] := by
  exact ⟨⟨rfl, rfl, seg_nil _ _ _, List.nodup_nil, by simp [construct],
    by simp [construct], by simp [construct]⟩, rfl⟩

theorem getRef_WF (c : LRUCache V) (L : List Nat) (k : String) (hwf : WF c L) :
    ∃ L2, WF (getRef c k).1 L2 ∧ (getRef c k).1.limit = c.limit := by
  cases hk : kmLookup c.keymap k with
  | none =>
    rw [getRef_absent c k hk]
    exact ⟨L, hwf, rfl⟩
  | some eid =>
    have heidL : eid ∈ L := hwf.1.2.2.2.2.1 (k, eid) (kmLookup_mem _ _ _ hk)
    obtain ⟨A, B, rfl⟩ := List.append_of_mem heidL
    cases B with
    | nil =>
      have htail : c.tail = some eid := by
        rw [hwf.1.2.1, List.getLast?_concat]
      rw [getRef_fastpath c k eid hk htail]
      exact ⟨A ++ [eid], hwf, rfl⟩
    | cons b0 B2 =>
      obtain ⟨hcw2, hsz2, hlim2, -, -, -⟩ :=
        getRef_touch c A (b0 :: B2) k eid hwf.1 hk (List.cons_ne_nil _ _)
      refine ⟨A ++ (b0 :: B2) ++ [eid], ⟨hcw2, ?_⟩, hlim2⟩
      rw [hsz2, hwf.2]
      simp

theorem set_present_eq (c c1 : LRUCache V) (k : String) (eid : Nat) (e : Entry V) (v : V)
    (hg : getRef c k = (c1, some eid)) (he : c1.store[eid]? = some e) :
    set c k v =
      ({ c1 with store := modifyE c1.store eid (fun x => { x with value := v }) },
        some e.value) := by
  unfold set
  rw [hg]
  simp only [he]

theorem set_WF (c : LRUCache V) (L : List Nat) (k : String) (v : V) (hwf : WF c L)
    (hne : c.size = c.limit → L ≠ []) :
    ∃ L2, WF (set c k v).1 L2 ∧ (set c k v).1.limit = c.limit := by
  cases hk : kmLookup c.keymap k with
  | none =>
    rw [set_absent c k v hk]
    obtain ⟨hplim, hno, hev⟩ := put_cases c L k v hwf hne
    by_cases hfull : c.size = c.limit
    · cases hL : L with
      | nil => exact absurd hL (hne hfull)
      | cons x L2 =>
        obtain ⟨hwf2, -, -⟩ := hev hfull x L2 hL
        exact ⟨L2 ++ [c.store.length], hwf2, hplim⟩
    · obtain ⟨hwf2, -, -⟩ := hno hfull
      exact ⟨L ++ [c.store.length], hwf2, hplim⟩
  | some eid =>
    have heidL : eid ∈ L := hwf.1.2.2.2.2.1 (k, eid) (kmLookup_mem _ _ _ hk)
    obtain ⟨A, B, rfl⟩ := List.append_of_mem heidL
    cases B with
    | nil =>
      have htail : c.tail = some eid := by
        rw [hwf.1.2.1, List.getLast?_concat]
      have hg : getRef c k = (c, some eid) := getRef_fastpath c k eid hk htail
      rcases seg_getElem?_of_mem _ _ _ _ hwf.1.2.2.1 eid heidL with ⟨e, he⟩
      rw [set_present_eq c c k eid e v hg he]
      exact ⟨A ++ [eid], ⟨updValue_ChainWF c _ eid v hwf.1, hwf.2⟩, rfl⟩
    | cons b0 B2 =>
      obtain ⟨hcw2, hsz2, hlim2, -, -, hret⟩ :=
        getRef_touch c A (b0 :: B2) k eid hwf.1 hk (List.cons_ne_nil _ _)
      have hg : getRef c k = ((getRef c k).1, some eid) := by
        rw [← hret]
      have heid2 : eid ∈ A ++ (b0 :: B2) ++ [eid] :=
        List.mem_append.mpr (Or.inr (List.mem_singleton.mpr rfl))
      rcases seg_getElem?_of_mem _ _ _ _ hcw2.2.2.1 eid heid2 with ⟨e, he⟩
      rw [set_present_eq c _ k eid e v hg he]
      refine ⟨A ++ (b0 :: B2) ++ [eid], ⟨updValue_ChainWF _ _ eid v hcw2, ?_⟩, hlim2⟩
      show (getRef c k).1.size = _
      rw [hsz2, hwf.2]
      simp

/-! ## Reachability: every state the public API can produce (limit ≥ 1,
`evict` only through `put`) -/

inductive Reachable : LRUCache V → Prop where
  | init (limit : Int) (h : 1 ≤ limit) : Reachable (construct limit)
  | step_put (c : LRUCache V) (k : String) (v : V) : Reachable c → Reachable (put c k v).1
  | step_get (c : LRUCache V) (k : String) : Reachable c → Reachable (getRef c k).1
  | step_set (c : LRUCache V) (k : String) (v : V) : Reachable c → Reachable (set c k v).1
  | step_remove (c : LRUCache V) (k : String) : Reachable c → Reachable (remove c k).1
  | step_removeAll (c : LRUCache V) : Reachable c → Reachable (removeAll c)

/-- Main invariant theorem: every reachable state carries a well-formed
chain whose length is `size`. -/
theorem reachable_WF (c : LRUCache V) (h : Reachable c) :
    1 ≤ c.limit ∧ ∃ L, WF c L := by
  induction h with
  | init limit hl => exact ⟨hl, [], construct_WF limit⟩
  | step_put c k v hr ih =>
    obtain ⟨hlim, L, hwf⟩ := ih
    have hne : c.size = c.limit → L ≠ [] := by
      intro hfull hLnil
      rw [hLnil] at hwf
      rw [hwf.2] at hfull
      simp at hfull
      omega
    obtain ⟨hplim, hno, hev⟩ := put_cases c L k v hwf hne
    by_cases hfull : c.size = c.limit
    · cases hL : L with
      | nil => exact absurd hL (hne hfull)
      | cons x L2 =>
        obtain ⟨hwf2, -, -⟩ := hev hfull x L2 hL
        exact ⟨by rw [hplim]; exact hlim, _, hwf2⟩
    · obtain ⟨hwf2, -, -⟩ := hno hfull
      exact ⟨by rw [hplim]; exact hlim, _, hwf2⟩
  | step_get c k hr ih =>
    obtain ⟨hlim, L, hwf⟩ := ih
    obtain ⟨L2, hwf2, hlim2⟩ := getRef_WF c L k hwf
    exact ⟨by rw [hlim2]; exact hlim, L2, hwf2⟩
  | step_set c k v hr ih =>
    obtain ⟨hlim, L, hwf⟩ := ih
    have hne : c.size = c.limit → L ≠ [] := by
      intro hfull hLnil
      rw [hLnil] at hwf
      rw [hwf.2] at hfull
      simp at hfull
      omega
    obtain ⟨L2, hwf2, hlim2⟩ := set_WF c L k v hwf hne
    exact ⟨by rw [hlim2]; exact hlim, L2, hwf2⟩
  | step_remove c k hr ih =>
    obtain ⟨hlim, L, hwf⟩ := ih
    cases hk : kmLookup c.keymap k with
    | none =>
      rw [remove_absent c k hk]
      exact ⟨hlim, L, hwf⟩
    | some eid =>
      have heidL : eid ∈ L := hwf.1.2.2.2.2.1 (k, eid) (kmLookup_mem _ _ _ hk)
      obtain ⟨A, B, rfl⟩ := List.append_of_mem heidL
      obtain ⟨hwf2, hlim2, -, -, -, -, -⟩ := remove_present c A B k eid hwf hk
      exact ⟨by rw [hlim2]; exact hlim, _, hwf2⟩
  | step_removeAll c hr ih =>
    obtain ⟨hlim, -, -⟩ := ih
    exact ⟨hlim, [], removeAll_WF c⟩


/-! ## The specification claims -/

/-- C1 (confirmed).  For every non-negative `limit` and every finite
sequence of `put` calls applied to a cache freshly built by
`construct limit`, the `size` field never exceeds `limit` after each
`put` completes.  Quantifying over all sequences `ps` covers every
prefix, i.e. the state after each individual `put`. -/
theorem C1_capacity_bound {V : Type} (limit : Int) (hl : 0 ≤ limit)
    (ps : List (String × V)) :
    (applyPuts (construct limit) ps).size ≤ limit := by
  have h := applyPuts_spec (construct (V := V) limit) ps (by exact hl)
  exact h.2

theorem C1_capacity_bound_witness :
    0 ≤ (2 : Int) ∧
    (applyPuts (construct (V := Nat) 2) [("a", 1), ("b", 2), ("c", 3)]).size ≤ 2 :=
  ⟨by decide, C1_capacity_bound 2 (by decide) [("a", 1), ("b", 2), ("c", 3)]⟩

/-- C2 (confirmed).  On a well-formed cache with `size ≤ limit`, `put`
inserts a fresh entry holding `k` and `v` at the tail; if the insertion
would push `size` past `limit` (`size + 1 > limit`, i.e. `size = limit`),
`put` evicts the head entry — the pre-`put` head when the cache was
non-empty, the just-inserted entry itself when it was empty (`limit = 0`)
— returning it with links cleared and leaving `size` unchanged; otherwise
it increments `size` by exactly one and returns nothing. -/
theorem C2_put_contract {V : Type} (c : LRUCache V) (L : List Nat) (k : String) (v : V)
    (hwf : WF c L) (hsl : c.size ≤ c.limit) :
    (put c k v).1.tail = some c.store.length ∧
    ((put c k v).1.store[c.store.length]?).map Entry.key = some k ∧
    ((put c k v).1.store[c.store.length]?).map Entry.value = some v ∧
    (c.size + 1 > c.limit → L = [] →
      (put c k v).2 = some { newer := none, older := none, key := k, value := v } ∧
      (put c k v).1.size = c.size) ∧
    (c.size + 1 > c.limit → ∀ x L2, L = x :: L2 →
      (∃ e, c.store[x]? = some e ∧
        (put c k v).2 =
          some { newer := none, older := none, key := e.key, value := e.value }) ∧
      (put c k v).1.size = c.size) ∧
    (¬(c.size + 1 > c.limit) →
      (put c k v).1.size = c.size + 1 ∧ (put c k v).2 = none) := by
  have hiff : c.size + 1 > c.limit ↔ c.size = c.limit := by
    constructor <;> intro h <;> omega
  obtain ⟨-, -, -, -, -, hpeid⟩ := putLink_chain c L k v hwf.1
  refine ⟨put_tail c k v, ?_, ?_, ?_, ?_, ?_⟩
  · rw [put_store]
    by_cases hfull : c.size = c.limit
    · rw [if_pos hfull, (shift_kv (putLink c k v) c.store.length).1, hpeid]
      rfl
    · rw [if_neg hfull, hpeid]
      rfl
  · rw [put_store]
    by_cases hfull : c.size = c.limit
    · rw [if_pos hfull, (shift_kv (putLink c k v) c.store.length).2, hpeid]
      rfl
    · rw [if_neg hfull, hpeid]
      rfl
  · intro hgt hL
    have hfull := hiff.mp hgt
    rw [hL] at hwf
    obtain ⟨hret, -, -, hsz⟩ := put_empty_full c k v hwf hfull
    exact ⟨hret, hsz⟩
  · intro hgt x L2 hL
    have hfull := hiff.mp hgt
    obtain ⟨-, -, hev⟩ :=
      put_cases c L k v hwf (fun _ => by rw [hL]; exact List.cons_ne_nil _ _)
    obtain ⟨-, hsz, e, he, hret⟩ := hev hfull x L2 hL
    exact ⟨⟨e, he, hret⟩, hsz⟩
  · intro hngt
    have hneq : c.size ≠ c.limit := fun heq => hngt (hiff.mpr heq)
    obtain ⟨-, hno, -⟩ := put_cases c L k v hwf (fun heq => absurd heq hneq)
    obtain ⟨-, hsz, hret⟩ := hno hneq
    exact ⟨hsz, hret⟩

theorem C2_put_contract_witness :
    ((put ((put (construct (V := Nat) 2) "a" 1).1) "b" 2).1.tail = some 1) ∧
    ((put ((put (construct (V := Nat) 2) "a" 1).1) "b" 2).1.size = 2) ∧
    ((put ((put (construct (V := Nat) 2) "a" 1).1) "b" 2).2 = none) := by
  have h := C2_put_contract ((put (construct (V := Nat) 2) "a" 1).1) [0] "b" 2
    (by decide) (by decide)
  have h2 := h.2.2.2.2.2 (by decide)
  exact ⟨h.1, h2.1, h2.2⟩

/-- C3 counterexample.  The claim demands that an evicting `put` return an
entry whose key is the pre-`put` head key.  With `limit = 0` on a fresh
cache, `put` does trigger an eviction (it returns an entry) although the
cache had no head at all before the call, so no "head key observed
immediately before the `put`" exists. -/
theorem C3_eviction_identity_counterexample :
    (put (construct (V := Nat) 0) "a" 1).2.isSome = true ∧
    (construct (V := Nat) 0).head = none := by decide

/-- C3 (corrected).  Amended claim: when the cache has a head entry
observed immediately before the `put` (which, for well-formed caches, is
every case except the `limit = 0` self-eviction, where no prior head
exists) and the `put` returns an evicted entry, the evicted entry's key
equals that pre-`put` head entry's key. -/
theorem C3_eviction_identity {V : Type} (c : LRUCache V) (L : List Nat) (h : Nat)
    (e ev : Entry V) (k : String) (v : V) (hwf : WF c L) (hh : c.head = some h)
    (he : c.store[h]? = some e) (hret : (put c k v).2 = some ev) :
    ev.key = e.key := by
  cases hL : L with
  | nil =>
    have h2 := hwf.1.1
    rw [hL, hh] at h2
    exact Option.noConfusion h2
  | cons x L2 =>
    have hx : x = h := by
      have h2 := hwf.1.1
      rw [hL, hh, List.head?_cons] at h2
      injection h2 with h3
      exact h3.symm
    by_cases hfull : c.size = c.limit
    · obtain ⟨-, -, hev⟩ :=
        put_cases c L k v hwf (fun _ => by rw [hL]; exact List.cons_ne_nil _ _)
      obtain ⟨-, -, e2, he2, hret2⟩ := hev hfull x L2 hL
      rw [hx, he] at he2
      injection he2 with he3
      rw [hret2] at hret
      injection hret with hret3
      rw [← hret3, he3]
    · obtain ⟨-, hno, -⟩ := put_cases c L k v hwf (fun heq => absurd heq hfull)
      rw [(hno hfull).2.2] at hret
      exact Option.noConfusion hret

theorem C3_eviction_identity_witness :
    (put ((put (construct (V := Nat) 1) "a" 10).1) "b" 20).2 =
      some { newer := none, older := none, key := "a", value := 10 } ∧
    Entry.key { newer := none, older := none, key := "a", value := (10 : Nat) } =
      Entry.key { newer := none, older := none, key := "a", value := (10 : Nat) } :=
  ⟨by decide,
    C3_eviction_identity ((put (construct (V := Nat) 1) "a" 10).1) [0] 0
      { newer := none, older := none, key := "a", value := 10 }
      { newer := none, older := none, key := "a", value := 10 } "b" 20
      (by decide) (by decide) (by decide) (by decide)⟩

/-- C4 counterexample.  The claim says a duplicate-key `put` leaves the
previous entry "no longer reachable by traversing the chain from head or
from tail".  In fact `put` never unlinks the old entry: after
`put a 1; put a 2` on a fresh `limit = 3` cache, the old entry (arena
index 0, value 1) is still the head and the head-to-tail traversal
(`forEach` order) visits it: the traversal is `[(a,1), (a,2)]`.  Only the
keymap stops referencing it (it now maps `a` to index 1). -/
theorem C4_put_duplicate_counterexample :
    (put (put (construct (V := Nat) 3) "a" 1).1 "a" 2).1.head = some 0 ∧
    ((put (put (construct (V := Nat) 3) "a" 1).1 "a" 2).1.store[0]?).map Entry.value =
      some 1 ∧
    forEachList (put (put (construct (V := Nat) 3) "a" 1).1 "a" 2).1 false =
      [("a", 1), ("a", 2)] ∧
    kmLookup (put (put (construct (V := Nat) 3) "a" 1).1 "a" 2).1.keymap "a" = some 1 := by
  decide

/-- C4 (corrected).  Amended claim: on a well-formed cache that already
holds a live entry for `key`, `put key v` always creates a second,
distinct entry under the same key (a fresh arena cell carrying `key` and
`v`).  What becomes of the previous entry depends on capacity:
(a) when the put does not trigger an eviction, the index is overwritten
to the new entry while the previous entry remains linked in the chain and
is still visited by the head-to-tail traversal — it is unreachable only
through the index; (b) when the put evicts and the previous entry is the
head, the eviction removes the previous entry from the chain and then
deletes the freshly overwritten index binding for `key`, so `key` ends up
absent from the index although its new entry sits in the chain; (c) when
the put evicts some other head entry, the previous entry again stays in
the chain and is still traversed, and the index keeps the new binding
whenever the evicted entry carries a different key. -/
theorem C4_put_duplicate {V : Type} (c : LRUCache V) (L : List Nat) (key : String)
    (old : Nat) (v : V) (hwf : WF c L) (hk : kmLookup c.keymap key = some old) :
    old ≠ c.store.length ∧
    ((put c key v).1.store[c.store.length]?).map Entry.key = some key ∧
    ((put c key v).1.store[c.store.length]?).map Entry.value = some v ∧
    ∃ e, c.store[old]? = some e ∧ e.key = key ∧
      ((c.size ≠ c.limit →
          (put c key v).2 = none ∧
          kmLookup (put c key v).1.keymap key = some c.store.length ∧
          WF (put c key v).1 (L ++ [c.store.length]) ∧
          old ∈ L ++ [c.store.length] ∧
          (key, e.value) ∈ forEachList (put c key v).1 false) ∧
       (c.size = c.limit → ∀ L2, L = old :: L2 →
          (put c key v).2 =
            some { newer := none, older := none, key := key, value := e.value } ∧
          kmLookup (put c key v).1.keymap key = none ∧
          WF (put c key v).1 (L2 ++ [c.store.length]) ∧
          old ∉ L2 ++ [c.store.length] ∧
          forEachList (put c key v).1 false =
            entriesOf (put c key v).1.store (L2 ++ [c.store.length])) ∧
       (c.size = c.limit → ∀ x L2, L = x :: L2 → x ≠ old →
          ∃ ex, c.store[x]? = some ex ∧
            (put c key v).2 =
              some { newer := none, older := none, key := ex.key, value := ex.value } ∧
            (ex.key ≠ key → kmLookup (put c key v).1.keymap key = some c.store.length) ∧
            WF (put c key v).1 (L2 ++ [c.store.length]) ∧
            old ∈ L2 ++ [c.store.length] ∧
            (key, e.value) ∈ forEachList (put c key v).1 false)) := by
  have hcw := hwf.1
  have hmem : old ∈ L := hcw.2.2.2.2.1 (key, old) (kmLookup_mem _ _ _ hk)
  have hlt : old < c.store.length := seg_lt_length_of_mem _ _ _ _ hcw.2.2.1 old hmem
  rcases seg_getElem?_of_mem _ _ _ _ hcw.2.2.1 old hmem with ⟨e, he⟩
  have hek : e.key = key := by
    have h2 := hcw.2.2.2.2.2.1 (key, old) (kmLookup_mem _ _ _ hk)
    rw [he] at h2
    injection h2 with h3
  have hnkv := put_new_kv c L key v hcw
  refine ⟨Nat.ne_of_lt hlt, hnkv.1, hnkv.2, e, he, hek, ?_, ?_, ?_⟩
  · -- (a) no eviction: index overwritten, old entry still in the chain
    intro hfull
    obtain ⟨-, hno, -⟩ := put_cases c L key v hwf (fun heq => absurd heq hfull)
    obtain ⟨hwf2, -, hret⟩ := hno hfull
    refine ⟨hret, ?_, hwf2, List.mem_append.mpr (Or.inl hmem), ?_⟩
    · rw [put_keymap_nonevict c key v hfull]
      exact kmLookup_update_self _ _ _
    · rw [forEachList_eq_entriesOf _ _ hwf2.1]
      have hkv := put_kv c key v old hlt
      refine entriesOf_mem _ _ old key e.value (List.mem_append.mpr (Or.inl hmem)) ?_ ?_
      · rw [hkv.1, he]
        show some e.key = some key
        rw [hek]
      · rw [hkv.2, he]
        rfl
  · -- (b) eviction of the previous entry itself: chain loses it and the
    -- fresh binding is deleted again
    intro hfull L2 hL
    obtain ⟨-, -, hev⟩ := put_cases c L key v hwf
      (fun _ => by rw [hL]; exact List.cons_ne_nil _ _)
    obtain ⟨hwf2, -, e2, he2, hret⟩ := hev hfull old L2 hL
    have he2e : e2 = e := by
      rw [he] at he2
      injection he2 with h3
      exact h3.symm
    obtain ⟨hpcw, -, -, -, -, -⟩ := putLink_chain c L key v hcw
    have hph : (putLink c key v).head = some old := by
      rw [hpcw.1, hL]
      rfl
    rcases seg_getElem?_of_mem _ _ _ _ hpcw.2.2.1 old
      (List.mem_append.mpr (Or.inl hmem)) with ⟨e3, he3⟩
    have he3k : e3.key = key := by
      have hkv := putLink_kv c key v old hlt
      rw [he3, he] at hkv
      have h4 := hkv.1
      injection h4 with h5
      exact h5.trans hek
    have hkm2 : (put c key v).1.keymap =
        kmDelete (kmUpdate c.keymap key c.store.length) key := by
      rw [put_keymap_evict c key v hfull old e3 hph he3, he3k]
    have hnotmem : old ∉ L2 ++ [c.store.length] := by
      intro hcon
      rcases List.mem_append.mp hcon with h1 | h1
      · have hndL := hcw.2.2.2.1
        rw [hL] at hndL
        exact (List.nodup_cons.mp hndL).1 h1
      · exact Nat.ne_of_lt hlt (List.mem_singleton.mp h1)
    refine ⟨?_, ?_, hwf2, hnotmem, forEachList_eq_entriesOf _ _ hwf2.1⟩
    · rw [hret, he2e, hek]
    · rw [hkm2]
      exact kmLookup_delete_self _ _
  · -- (c) eviction of a different head entry: old entry still in the chain
    intro hfull x L2 hL hxo
    obtain ⟨-, -, hev⟩ := put_cases c L key v hwf
      (fun _ => by rw [hL]; exact List.cons_ne_nil _ _)
    obtain ⟨hwf2, -, ex, hex, hret⟩ := hev hfull x L2 hL
    have hxmem : x ∈ L := by
      rw [hL]
      exact List.mem_cons_self _ _
    have hxlt : x < c.store.length := seg_lt_length_of_mem _ _ _ _ hcw.2.2.1 x hxmem
    obtain ⟨hpcw, -, -, -, -, -⟩ := putLink_chain c L key v hcw
    have hph : (putLink c key v).head = some x := by
      rw [hpcw.1, hL]
      rfl
    rcases seg_getElem?_of_mem _ _ _ _ hpcw.2.2.1 x
      (List.mem_append.mpr (Or.inl hxmem)) with ⟨e3, he3⟩
    have he3k : e3.key = ex.key := by
      have hkv := putLink_kv c key v x hxlt
      rw [he3, hex] at hkv
      have h4 := hkv.1
      injection h4 with h5
    have homem : old ∈ L2 := by
      have h1 : old ∈ x :: L2 := by
        rw [← hL]
        exact hmem
      rcases List.mem_cons.mp h1 with h2 | h2
      · exact absurd h2.symm hxo
      · exact h2
    refine ⟨ex, hex, hret, ?_, hwf2, List.mem_append.mpr (Or.inl homem), ?_⟩
    · intro hxk
      rw [put_keymap_evict c key v hfull x e3 hph he3, he3k,
          kmLookup_delete_ne _ _ _ (Ne.symm hxk)]
      exact kmLookup_update_self _ _ _
    · rw [forEachList_eq_entriesOf _ _ hwf2.1]
      have hkv := put_kv c key v old hlt
      refine entriesOf_mem _ _ old key e.value
        (List.mem_append.mpr (Or.inl homem)) ?_ ?_
      · rw [hkv.1, he]
        show some e.key = some key
        rw [hek]
      · rw [hkv.2, he]
        rfl

theorem C4_put_duplicate_witness :
    ((0 : Nat) ≠ 1) ∧
    kmLookup (put (put (construct (V := Nat) 3) "a" 1).1 "a" 2).1.keymap "a" = some 1 ∧
    ("a", 1) ∈ forEachList (put (put (construct (V := Nat) 3) "a" 1).1 "a" 2).1 false := by
  have h := C4_put_duplicate ((put (construct (V := Nat) 3) "a" 1).1) [0] "a" 0 2
    (by decide) (by decide)
  obtain ⟨h1, -, -, e, he, -, hcase1, -, -⟩ := h
  obtain ⟨-, h2, -, -, hmem⟩ := hcase1 (by decide)
  refine ⟨h1, h2, ?_⟩
  have he2 : e = { newer := none, older := none, key := "a", value := 1 } := by
    have : ((put (construct (V := Nat) 3) "a" 1).1).store[0]? =
        some { newer := none, older := none, key := "a", value := 1 } := by decide
    rw [this] at he
    injection he with h3
    exact h3.symm
  rw [he2] at hmem
  exact hmem

/-- C5 counterexample.  The claim says that when `limit = 0` forces `set`
on an absent key to self-evict the freshly inserted entry, `set` returns
an absent result.  The code instead returns the evicted entry's value —
the very value just passed in. -/
theorem C5_set_absent_counterexample :
    kmLookup (construct (V := Nat) 0).keymap "a" = none ∧
    (set (construct (V := Nat) 0) "a" 1).2 = some 1 := by decide

/-- C5 (corrected).  Amended claim: for an absent key, `set` performs a
`put` and returns the evicted entry's value whenever that `put` evicted —
including when the evicted entry is the one just inserted (`limit = 0` on
an empty cache), in which case it returns the value just passed in; if no
eviction was triggered, `set` returns an absent result. -/
theorem C5_set_absent {V : Type} (c : LRUCache V) (L : List Nat) (k : String) (v : V)
    (hwf : WF c L) (hk : kmLookup c.keymap k = none) :
    (c.size = c.limit → L = [] → (set c k v).2 = some v) ∧
    (c.size = c.limit → ∀ x L2, L = x :: L2 →
      ∃ e, c.store[x]? = some e ∧ (set c k v).2 = some e.value) ∧
    (c.size ≠ c.limit → (set c k v).2 = none) := by
  rw [set_absent c k v hk]
  refine ⟨?_, ?_, ?_⟩
  · intro hfull hL
    rw [hL] at hwf
    obtain ⟨hret, -, -, -⟩ := put_empty_full c k v hwf hfull
    show ((put c k v).2).map (·.value) = some v
    rw [hret]
    rfl
  · intro hfull x L2 hL
    obtain ⟨-, -, hev⟩ :=
      put_cases c L k v hwf (fun _ => by rw [hL]; exact List.cons_ne_nil _ _)
    obtain ⟨-, -, e, he, hret⟩ := hev hfull x L2 hL
    refine ⟨e, he, ?_⟩
    show ((put c k v).2).map (·.value) = some e.value
    rw [hret]
    rfl
  · intro hne
    obtain ⟨-, hno, -⟩ := put_cases c L k v hwf (fun heq => absurd heq hne)
    show ((put c k v).2).map (·.value) = none
    rw [(hno hne).2.2]
    rfl

theorem C5_set_absent_witness :
    (set (construct (V := Nat) 0) "a" 7).2 = some 7 ∧
    (set ((put (construct (V := Nat) 2) "x" 5).1) "y" 6).2 = none := by
  constructor
  · exact (C5_set_absent (construct (V := Nat) 0) [] "a" 7 (by decide) (by decide)).1
      (by decide) rfl
  · exact (C5_set_absent ((put (construct (V := Nat) 2) "x" 5).1) [0] "y" 6
      (by decide) (by decide)).2.2 (by decide)

/-- C6 (confirmed).  `evict` (the source's `shift`): on an empty cache it
returns an absent result with no mutation — not a failure (the function is
total).  On a cache whose head references entry `e`, it removes and
returns that head entry, relinks `head` to `e.newer` (which is `none`
when the evicted entry was also the last), clears the returned entry's
own `older`/`newer` links, removes its key from the index, and in no case
decrements `size`. -/
theorem C6_evict_contract {V : Type} (c : LRUCache V) :
    (c.head = none → shift c = (c, none)) ∧
    (∀ h e, c.head = some h → c.store[h]? = some e →
      (shift c).1.head = e.newer ∧
      (shift c).2 = some { e with newer := none, older := none } ∧
      kmLookup (shift c).1.keymap e.key = none ∧
      (shift c).1.size = c.size) := by
  refine ⟨shift_empty c, ?_⟩
  intro h e hh he
  obtain ⟨h1, h2, h3, h4, h5, h6⟩ := shift_spec c h e hh he
  refine ⟨h1, h6, ?_, h3⟩
  rw [h5]
  exact kmLookup_delete_self _ _

theorem C6_evict_contract_witness :
    (shift (construct (V := Nat) 2) = (construct 2, none)) ∧
    ((shift ((put (construct (V := Nat) 2) "a" 1).1)).1.head = none ∧
      (shift ((put (construct (V := Nat) 2) "a" 1).1)).2 =
        some { newer := none, older := none, key := "a", value := 1 } ∧
      kmLookup (shift ((put (construct (V := Nat) 2) "a" 1).1)).1.keymap "a" = none ∧
      (shift ((put (construct (V := Nat) 2) "a" 1).1)).1.size = 1) := by
  constructor
  · exact (C6_evict_contract (construct (V := Nat) 2)).1 rfl
  · have h := (C6_evict_contract ((put (construct (V := Nat) 2) "a" 1).1)).2 0
      { newer := none, older := none, key := "a", value := 1 } (by decide) (by decide)
    exact h

/-- C7 (confirmed).  On a well-formed cache: for an absent key, `remove`
returns an absent result and leaves the entire cache state unchanged; for
a key bound to chain entry `eid`, `remove` deletes the key from the
index (so `find` then returns absent and `keys` excludes the key),
relinks the entry's neighbors (the chain is the old chain with `eid`
excised, still well-formed), decrements `size` by exactly one, and
returns the entry's value. -/
theorem C7_remove_contract {V : Type} (c : LRUCache V) (L : List Nat) (k : String)
    (hwf : WF c L) :
    (kmLookup c.keymap k = none → remove c k = (c, none)) ∧
    (∀ eid, kmLookup c.keymap k = some eid →
      ∃ A B, L = A ++ eid :: B ∧
        WF (remove c k).1 (A ++ B) ∧
        (remove c k).1.size = c.size - 1 ∧
        find (remove c k).1 k = none ∧
        k ∉ keys (remove c k).1 ∧
        ∃ e, c.store[eid]? = some e ∧ (remove c k).2 = some e.value) := by
  refine ⟨remove_absent c k, ?_⟩
  intro eid hk
  have hmem : eid ∈ L := hwf.1.2.2.2.2.1 (k, eid) (kmLookup_mem _ _ _ hk)
  obtain ⟨A, B, hL⟩ := List.append_of_mem hmem
  subst hL
  obtain ⟨hwf2, -, hsz2, -, hkm2, hkeys2, e, he, hret⟩ := remove_present c A B k eid hwf hk
  refine ⟨A, B, rfl, hwf2, hsz2, ?_, ?_, e, he, hret⟩
  · unfold find
    rw [hkm2]
    rfl
  · intro hcon
    exact hkeys2 k hcon rfl

theorem C7_remove_contract_witness :
    (remove ((put (construct (V := Nat) 3) "a" 1).1) "b" =
      ((put (construct (V := Nat) 3) "a" 1).1, none)) ∧
    (∃ A B, ([0] : List Nat) = A ++ 0 :: B ∧
      WF (remove ((put (construct (V := Nat) 3) "a" 1).1) "a").1 (A ++ B) ∧
      (remove ((put (construct (V := Nat) 3) "a" 1).1) "a").1.size = 1 - 1 ∧
      find (remove ((put (construct (V := Nat) 3) "a" 1).1) "a").1 "a" = none ∧
      "a" ∉ keys (remove ((put (construct (V := Nat) 3) "a" 1).1) "a").1 ∧
      ∃ e, ((put (construct (V := Nat) 3) "a" 1).1).store[0]? = some e ∧
        (remove ((put (construct (V := Nat) 3) "a" 1).1) "a").2 = some e.value) := by
  constructor
  · exact (C7_remove_contract ((put (construct (V := Nat) 3) "a" 1).1) [0] "b"
      (by decide)).1 (by decide)
  · exact (C7_remove_contract ((put (construct (V := Nat) 3) "a" 1).1) [0] "a"
      (by decide)).2 0 (by decide)

/-- C8 (confirmed).  Touch idempotence: calling `get` on the key of the
current tail entry (the key that the index maps to the tail) takes the
pure fast path — the state is returned unchanged, so `head`, `tail`,
`size` and both full traversal orders (`forEach` in either direction) are
identical before and after the call. -/
theorem C8_touch_idempotent {V : Type} (c : LRUCache V) (t : Nat) (e : Entry V)
    (htail : c.tail = some t) (he : c.store[t]? = some e)
    (hk : kmLookup c.keymap e.key = some t) :
    (get c e.key).1 = c ∧
    (get c e.key).1.head = c.head ∧ (get c e.key).1.tail = c.tail ∧
    (get c e.key).1.size = c.size ∧
    forEachList (get c e.key).1 false = forEachList c false ∧
    forEachList (get c e.key).1 true = forEachList c true := by
  have hg : getRef c e.key = (c, some t) := getRef_fastpath c e.key t hk htail
  have hstate : (get c e.key).1 = c := by
    unfold get
    rw [hg]
  rw [hstate]
  exact ⟨rfl, rfl, rfl, rfl, rfl, rfl⟩

theorem C8_touch_idempotent_witness :
    (get ((put ((put (construct (V := Nat) 2) "a" 1).1) "b" 2).1) "b").1 =
      ((put ((put (construct (V := Nat) 2) "a" 1).1) "b" 2).1) := by
  exact (C8_touch_idempotent ((put ((put (construct (V := Nat) 2) "a" 1).1) "b" 2).1) 1
    { newer := none, older := some 0, key := "b", value := 2 }
    (by decide) (by decide) (by decide)).1

/-- C9 counterexample.  The claim requires the chain invariant (a single
doubly linked chain from `head` to `tail` of length `size`) to hold after
*every* public operation, including `evict`.  A standalone `evict`
(`shift`) never decrements `size`: after `construct 2; put a 1; evict`,
the cache has `head = none` (empty chain) but `size = 1`, so no chain of
length `size` can frame it — `WF` fails for every candidate chain. -/
theorem C9_chain_invariant_counterexample :
    (shift ((put (construct (V := Nat) 2) "a" 1).1)).1.head = none ∧
    (shift ((put (construct (V := Nat) 2) "a" 1).1)).1.size = 1 ∧
    ¬∃ L, WF (shift ((put (construct (V := Nat) 2) "a" 1).1)).1 L := by
  refine ⟨by decide, by decide, ?_⟩
  rintro ⟨L, hcw, hsz⟩
  have h1 : (shift ((put (construct (V := Nat) 2) "a" 1).1)).1.head = none := by decide
  have h2 : L.head? = none := by rw [← hcw.1, h1]
  have h3 : L = [] := List.head?_eq_none_iff.mp h2
  rw [h3] at hsz
  have h4 : (shift ((put (construct (V := Nat) 2) "a" 1).1)).1.size = 1 := by decide
  rw [h4] at hsz
  simp at hsz

/-- C9 (corrected).  Amended claim: restricted to caches built with
`limit ≥ 1` and to the mutating operations that the public API performs
in full (`construct`, `put` — including its internal capacity-triggered
`evict` —, `get`, `set`, `remove`, `removeAll`; the remaining operations
`find`, `keys`, `forEach`, `describe` never mutate the state), every
reachable state carries a single acyclic doubly linked chain from `head`
to `tail` whose length equals `size` (together with a coherent index).
A *standalone* `evict` is excluded: it removes a chain entry without
decrementing `size`, and `put` on a `limit = 0` cache also breaks the
invariant — see the counterexample. -/
theorem C9_chain_invariant {V : Type} (c : LRUCache V) (h : Reachable c) :
    ∃ L, WF c L :=
  (reachable_WF c h).2

theorem C9_chain_invariant_witness :
    ∃ L, WF ((put (construct (V := Nat) 2) "a" 1).1) L :=
  C9_chain_invariant ((put (construct (V := Nat) 2) "a" 1).1)
    (Reachable.step_put _ "a" 1 (Reachable.init 2 (by decide)))

/-- C10 counterexample.  The claim says construction with a negative
capacity is rejected (fails fast).  The constructor performs no
validation whatsoever: `construct (-1)` succeeds and produces an ordinary
empty cache that stores the negative limit verbatim. -/
theorem C10_negative_limit_counterexample :
    (construct (V := Nat) (-1)).limit = -1 ∧
    (construct (V := Nat) (-1)).size = 0 ∧
    (construct (V := Nat) (-1)).keymap = [] ∧
    (construct (V := Nat) (-1)).head = none := by decide

/-- C10 (corrected).  Amended claim: construction with a negative
capacity is *not* rejected and nothing is coerced: the constructor
produces an empty cache whose `limit` field is the negative value as
given; a subsequent `put` on it never finds `size = limit`, so it inserts
without evicting and `size` grows past the (negative) limit. -/
theorem C10_negative_limit {V : Type} (l : Int) (hl : l < 0) (k : String) (v : V) :
    (construct (V := V) l).limit = l ∧
    (construct (V := V) l).size = 0 ∧
    (put (construct (V := V) l) k v).2 = none ∧
    (put (construct (V := V) l) k v).1.size = 1 := by
  have hne : (construct (V := V) l).size ≠ (construct (V := V) l).limit := by
    show (0 : Int) ≠ l
    omega
  obtain ⟨-, hno, -⟩ := put_cases (construct (V := V) l) [] k v (construct_WF l)
    (fun heq => absurd heq hne)
  obtain ⟨-, hsz, hret⟩ := hno hne
  exact ⟨rfl, rfl, hret, hsz⟩

theorem C10_negative_limit_witness :
    (construct (V := Nat) (-1)).limit = -1 ∧
    (construct (V := Nat) (-1)).size = 0 ∧
    (put (construct (V := Nat) (-1)) "a" 1).2 = none ∧
    (put (construct (V := Nat) (-1)) "a" 1).1.size = 1 :=
  C10_negative_limit (-1) (by decide) "a" 1

end LRU
